import Mathlib

/-!
Shallow embedding of the character-extraction pipeline of this repository
(`character_extractor/extract_characters.py` and
`character_extractor/extract_characters_simple.py`).

Conventions of the embedding:
* Python floats (SVG coordinates) are modelled as exact rationals `ℚ`;
  `int()` truncation toward zero is `pyTrunc`.
* Python dicts with insertion-order iteration (the `defaultdict` grid of
  buckets) are association lists that preserve insertion order.
* Python sets (`visited`) are lists used only through membership.
* The unbounded `while queue:` loops are structurally recursive on an
  explicit fuel argument; callers pass a fuel that provably dominates the
  loop measure, so the fuel-exhausted branch is never taken.
* `numpy` arrays are functions `ℤ → ℤ → Bool` (occupancy) together with
  explicit height/width, and the label map is a function `ℤ × ℤ → ℕ`.
-/

/- ## §1 Vector pipeline: extract_characters.py, extract_characters_from_svg -/

/-- One `<rect>` pixel primitive: `(x, y, w, h, fill)`
(extract_characters.py line 88). -/
structure Prim where
  x : ℚ
  y : ℚ
  w : ℚ
  h : ℚ
  fill : String
deriving DecidableEq

/-- Python `int()` applied to a (rational-valued) float: truncation toward
zero. -/
def pyTrunc (q : ℚ) : ℤ := if 0 ≤ q then ⌊q⌋ else ⌈q⌉

/-- Python's builtin `min(a, b)` on (rational-valued) floats. -/
def pyMin (a b : ℚ) : ℚ := if a ≤ b then a else b

/-- Python's builtin `max(a, b)` on (rational-valued) floats. -/
def pyMax (a b : ℚ) : ℚ := if b ≤ a then a else b

/-- `grid_size = 20` (extract_characters.py line 109). -/
def grid_size : ℚ := 20

/-- Bucket key `(grid_x, grid_y) = (int(x / grid_size), int(y / grid_size))`
(extract_characters.py lines 113-114). -/
def bucketKey (p : Prim) : ℤ × ℤ := (pyTrunc (p.x / grid_size), pyTrunc (p.y / grid_size))

/-- `grid[(grid_x, grid_y)].append(i)` on an insertion-ordered association
list modelling the `defaultdict(list)` of line 110. -/
def addToGrid (g : List ((ℤ × ℤ) × List ℕ)) (k : ℤ × ℤ) (i : ℕ) : List ((ℤ × ℤ) × List ℕ) :=
  match g with
  | [] => [(k, [i])]
  | (k', l) :: rest => if k' = k then (k', l ++ [i]) :: rest else (k', l) :: addToGrid rest k i

/-- The bucket grid built by the loop of extract_characters.py lines 112-115:
every primitive index is appended to the bucket of its origin. -/
def buildGrid (pixels : List Prim) : List ((ℤ × ℤ) × List ℕ) :=
  pixels.enum.foldl (fun g p => addToGrid g (bucketKey p.2) p.1) []

/-- `grid[cell]` (list of primitive indices; `[]` for an absent key). -/
def gridGet (g : List ((ℤ × ℤ) × List ℕ)) (k : ℤ × ℤ) : List ℕ :=
  match g with
  | [] => []
  | (k', l) :: rest => if k' = k then l else gridGet rest k

/-- The keys of the bucket grid in insertion order (`for cell in grid`). -/
def gridKeys (g : List ((ℤ × ℤ) × List ℕ)) : List (ℤ × ℤ) := g.map Prod.fst

/-- The neighbour offsets of extract_characters.py lines 135-136:
`for dx in [-1, 0, 1]: for dy in [-1, 0, 1]` (the `(0,0)` entry is kept;
it is harmless because the current cell is already visited). -/
def nbrDirs : List (ℤ × ℤ) :=
  [(-1, -1), (-1, 0), (-1, 1), (0, -1), (0, 0), (0, 1), (1, -1), (1, 0), (1, 1)]

/-- The inner neighbour scan of extract_characters.py lines 135-140:
`if neighbor in grid and neighbor not in visited: visited.add; queue.append`.
Returns the newly enqueued cells (in append order) and the new visited set. -/
def enqueueNbrs (g : List ((ℤ × ℤ) × List ℕ)) (c : ℤ × ℤ) :
    List (ℤ × ℤ) → List (ℤ × ℤ) → List (ℤ × ℤ) → List (ℤ × ℤ) × List (ℤ × ℤ)
  | [], added, visited => (added, visited)
  | d :: ds, added, visited =>
    let n : ℤ × ℤ := (c.1 + d.1, c.2 + d.2)
    if n ∈ gridKeys g ∧ n ∉ visited then
      enqueueNbrs g c ds (added ++ [n]) (n :: visited)
    else
      enqueueNbrs g c ds added visited

/-- The `while queue:` BFS of extract_characters.py lines 130-140, made
structural on a fuel argument.  Accumulates `character_pixels`
(`character_pixels.extend(grid[current])`) and returns it with the final
visited set. -/
def bucketBFS (g : List ((ℤ × ℤ) × List ℕ)) :
    ℕ → List (ℤ × ℤ) → List (ℤ × ℤ) → List ℕ → List ℕ × List (ℤ × ℤ)
  | 0, _, visited, acc => (acc, visited)
  | _ + 1, [], visited, acc => (acc, visited)
  | fuel + 1, c :: rest, visited, acc =>
    let r := enqueueNbrs g c nbrDirs [] visited
    bucketBFS g fuel (rest ++ r.1) r.2 (acc ++ gridGet g c)

/-- The outer loop `for cell in grid:` of extract_characters.py lines
121-144, collecting every BFS component (`character_pixels`) in discovery
order, before the noise filter of line 143. -/
def clusterLoop (g : List ((ℤ × ℤ) × List ℕ)) :
    List (ℤ × ℤ) → List (ℤ × ℤ) → List (List ℕ) × List (ℤ × ℤ)
  | [], visited => ([], visited)
  | c :: cells, visited =>
    if c ∈ visited then clusterLoop g cells visited
    else
      let r := bucketBFS g (g.length + 1) [c] (c :: visited) []
      let rec' := clusterLoop g cells r.2
      (r.1 :: rec'.1, rec'.2)

/-- All candidate regions (index sets as discovery-ordered lists) produced by
the grid bucket clusterer, before the `len(character_pixels) > 5` filter. -/
def componentsOf (pixels : List Prim) : List (List ℕ) :=
  (clusterLoop (buildGrid pixels) (gridKeys (buildGrid pixels)) []).1

/-- The kept characters: `if len(character_pixels) > 5: characters.append(...)`
(extract_characters.py line 143), expressed as a filter over the
discovery-ordered component list. -/
def charactersOf (pixels : List Prim) : List (List ℕ) :=
  (componentsOf pixels).filter (fun c => 5 < c.length)

/-- The regions discarded by the noise filter of line 143. -/
def discardedOf (pixels : List Prim) : List (List ℕ) :=
  (componentsOf pixels).filter (fun c => c.length ≤ 5)

/-- The regions emitted by `extract_characters_from_svg`, as primitive-index
lists: the `if not pixels: return` guard of line 92 emits nothing; the
`if len(positions) < 10` guard of line 103 emits one region holding every
primitive; otherwise the clustered-and-filtered characters are emitted. -/
def extractRegions (pixels : List Prim) : List (List ℕ) :=
  if pixels = [] then []
  else if pixels.length < 10 then [List.range pixels.length]
  else charactersOf pixels

/-- The noise set of a run of `extract_characters_from_svg` (regions built by
the clusterer but dropped by line 143; empty on the small-input branches). -/
def discardedRegions (pixels : List Prim) : List (List ℕ) :=
  if pixels = [] then []
  else if pixels.length < 10 then []
  else discardedOf pixels

/- ## §2 Raster labeler: extract_characters_simple.py, label_connected_components -/

/-- The 8-connectivity offsets `(dy, dx)` of extract_characters_simple.py
line 238. -/
def directions8 : List (ℤ × ℤ) :=
  [(-1, -1), (-1, 0), (-1, 1), (0, -1), (0, 1), (1, -1), (1, 0), (1, 1)]

/-- Cell `(y, x)` lies inside a `h × w` occupancy grid. -/
def inBounds (h w : ℕ) (c : ℤ × ℤ) : Prop :=
  0 ≤ c.1 ∧ c.1 < (h : ℤ) ∧ 0 ≤ c.2 ∧ c.2 < (w : ℤ)

instance (h w : ℕ) (c : ℤ × ℤ) : Decidable (inBounds h w c) := by
  unfold inBounds; infer_instance

/-- `labeled_array[y, x] = l` as a pointwise update of the label map. -/
def setLabel (m : ℤ × ℤ → ℕ) (c : ℤ × ℤ) (l : ℕ) : ℤ × ℤ → ℕ :=
  fun c' => if c' = c then l else m c'

/-- The neighbour scan of extract_characters_simple.py lines 256-263:
bounds check, foreground check, visited check; on success the neighbour is
marked visited, labelled, and enqueued. -/
def floodNbrs (g : ℤ → ℤ → Bool) (h w : ℕ) (l : ℕ) (c : ℤ × ℤ) :
    List (ℤ × ℤ) → List (ℤ × ℤ) → List (ℤ × ℤ) → (ℤ × ℤ → ℕ) →
    List (ℤ × ℤ) × List (ℤ × ℤ) × (ℤ × ℤ → ℕ)
  | [], added, visited, labeled => (added, visited, labeled)
  | d :: ds, added, visited, labeled =>
    let n : ℤ × ℤ := (c.1 + d.1, c.2 + d.2)
    if inBounds h w n ∧ g n.1 n.2 ∧ n ∉ visited then
      floodNbrs g h w l c ds (added ++ [n]) (n :: visited) (setLabel labeled n l)
    else
      floodNbrs g h w l c ds added visited labeled

/-- The `while queue:` flood fill of extract_characters_simple.py lines
252-263, fuel-structural.  Returns the final visited set and label map. -/
def floodBFS (g : ℤ → ℤ → Bool) (h w : ℕ) (l : ℕ) :
    ℕ → List (ℤ × ℤ) → List (ℤ × ℤ) → (ℤ × ℤ → ℕ) →
    List (ℤ × ℤ) × (ℤ × ℤ → ℕ)
  | 0, _, visited, labeled => (visited, labeled)
  | _ + 1, [], visited, labeled => (visited, labeled)
  | fuel + 1, c :: rest, visited, labeled =>
    let r := floodNbrs g h w l c directions8 [] visited labeled
    floodBFS g h w l fuel (rest ++ r.1) r.2.1 r.2.2

/-- The row-major scan order `for y in range(height): for x in range(width)`
of extract_characters_simple.py lines 241-242, as a list of `(y, x)` cells. -/
def rowMajor (h w : ℕ) : List (ℤ × ℤ) :=
  (List.range h).flatMap fun y => (List.range w).map fun (x : ℕ) => ((y : ℤ), (x : ℤ))

/-- The outer labelling loop of extract_characters_simple.py lines 241-263:
on an unvisited foreground pixel, increment the label counter, seed a flood
fill, and continue the scan with the updated state.  Returns the label map,
the final label counter, and the visited set. -/
def labelLoop (g : ℤ → ℤ → Bool) (h w : ℕ) :
    List (ℤ × ℤ) → List (ℤ × ℤ) → (ℤ × ℤ → ℕ) → ℕ →
    (ℤ × ℤ → ℕ) × ℕ × List (ℤ × ℤ)
  | [], visited, labeled, cl => (labeled, cl, visited)
  | c :: cs, visited, labeled, cl =>
    if g c.1 c.2 ∧ c ∉ visited then
      let r := floodBFS g h w (cl + 1) (h * w + 1) [c] (c :: visited) (setLabel labeled c (cl + 1))
      labelLoop g h w cs r.1 r.2 (cl + 1)
    else
      labelLoop g h w cs visited labeled cl

/-- `label_connected_components(binary_array)` (extract_characters_simple.py
lines 218-265): the label map and the number of components. -/
def label_connected_components (g : ℤ → ℤ → Bool) (h w : ℕ) : (ℤ × ℤ → ℕ) × ℕ :=
  let r := labelLoop g h w (rowMajor h w) [] (fun _ => 0) 0
  (r.1, r.2.1)

/-- `np.where(labeled_array == label)` of extract_characters_simple.py line
193: the cells carrying a given label, in row-major order. -/
def np_where_label (labeled : ℤ × ℤ → ℕ) (h w : ℕ) (l : ℕ) : List (ℤ × ℤ) :=
  (rowMajor h w).filter fun c => labeled c = l

/-- The labels surviving the noise filter of extract_characters_simple.py
lines 191-197: `for label in range(1, num_features + 1): ...
if len(x_indices) < 10: continue`. -/
def keptLabels (g : ℤ → ℤ → Bool) (h w : ℕ) : List ℕ :=
  let r := label_connected_components g h w
  ((List.range r.2).map (· + 1)).filter fun l => ¬ (np_where_label r.1 h w l).length < 10

/- ## §3 Bitmap fallback: extract_characters.py, extract_characters_from_bitmap -/

/-- The 4-connectivity offsets `(dx, dy)` of extract_characters.py line 197. -/
def directions4 : List (ℤ × ℤ) := [(-1, 0), (1, 0), (0, -1), (0, 1)]

/-- The neighbour scan of extract_characters.py lines 197-203 (cells are
`(x, y)`; `binary.getpixel((nx, ny)) == 0` — foreground is a zero pixel —
is `fg nx ny`). -/
def bitmapNbrs (fg : ℤ → ℤ → Bool) (w h : ℕ) (c : ℤ × ℤ) :
    List (ℤ × ℤ) → List (ℤ × ℤ) → List (ℤ × ℤ) → List (ℤ × ℤ) × List (ℤ × ℤ)
  | [], added, visited => (added, visited)
  | d :: ds, added, visited =>
    let n : ℤ × ℤ := (c.1 + d.1, c.2 + d.2)
    if 0 ≤ n.1 ∧ n.1 < (w : ℤ) ∧ 0 ≤ n.2 ∧ n.2 < (h : ℤ) ∧ n ∉ visited ∧ fg n.1 n.2 then
      bitmapNbrs fg w h c ds (added ++ [n]) (n :: visited)
    else
      bitmapNbrs fg w h c ds added visited

/-- The `while queue:` loop of extract_characters.py lines 194-203;
`character_pixels` receives each cell when it is enqueued. -/
def bitmapBFS (fg : ℤ → ℤ → Bool) (w h : ℕ) :
    ℕ → List (ℤ × ℤ) → List (ℤ × ℤ) → List (ℤ × ℤ) →
    List (ℤ × ℤ) × List (ℤ × ℤ)
  | 0, _, visited, comp => (comp, visited)
  | _ + 1, [], visited, comp => (comp, visited)
  | fuel + 1, c :: rest, visited, comp =>
    let r := bitmapNbrs fg w h c directions4 [] visited
    bitmapBFS fg w h fuel (rest ++ r.1) r.2 (comp ++ r.1)

/-- The scan order of extract_characters.py lines 184-185:
`for y in range(binary.height): for x in range(binary.width)` over `(x, y)`
cells. -/
def scanXY (w h : ℕ) : List (ℤ × ℤ) :=
  (List.range h).flatMap fun y => (List.range w).map fun (x : ℕ) => ((x : ℤ), (y : ℤ))

/-- The outer loop of extract_characters.py lines 184-207
(`if (x, y) in visited or binary.getpixel((x, y)) > 0: continue` — the
component is seeded on an unvisited zero pixel), collecting every
`character_pixels` list before the `len > 10` filter of line 206. -/
def bitmapLoop (fg : ℤ → ℤ → Bool) (w h : ℕ) :
    List (ℤ × ℤ) → List (ℤ × ℤ) → List (List (ℤ × ℤ)) × List (ℤ × ℤ)
  | [], visited => ([], visited)
  | c :: cs, visited =>
    if c ∈ visited ∨ ¬ fg c.1 c.2 then bitmapLoop fg w h cs visited
    else
      let r := bitmapBFS fg w h (w * h + 1) [c] (c :: visited) [c]
      let rec' := bitmapLoop fg w h cs r.2
      (r.1 :: rec'.1, rec'.2)

/-- All flood-fill components of the bitmap fallback path, in discovery
order, before the noise filter. -/
def bitmapComponents (fg : ℤ → ℤ → Bool) (w h : ℕ) : List (List (ℤ × ℤ)) :=
  (bitmapLoop fg w h (scanXY w h) []).1

/-- The characters kept by the bitmap fallback
(`if len(character_pixels) > 10`, extract_characters.py line 206). -/
def bitmapCharacters (fg : ℤ → ℤ → Bool) (w h : ℕ) : List (List (ℤ × ℤ)) :=
  (bitmapComponents fg w h).filter fun c => 10 < c.length

/- ## §4 Region encoder -/

/-- A bounding box `(minX, minY, maxX, maxY)`. -/
structure Box (α : Type) where
  minX : α
  minY : α
  maxX : α
  maxY : α
deriving DecidableEq

/-- The unpadded bounding box of extract_characters.py lines 245-248:
`min(x)`, `max(x + w)`, `min(y)`, `max(y + h)` over the member primitives
(junk value on the empty list, which makes Python's `min` raise). -/
def prim_bbox (ps : List Prim) : Box ℚ :=
  match ps with
  | [] => ⟨0, 0, 0, 0⟩
  | p :: rest =>
    ⟨rest.foldl (fun m q => pyMin m q.x) p.x,
     rest.foldl (fun m q => pyMin m q.y) p.y,
     rest.foldl (fun m q => pyMax m (q.x + q.w)) (p.x + p.w),
     rest.foldl (fun m q => pyMax m (q.y + q.h)) (p.y + p.h)⟩

/-- The padded, canvas-clipped box of `save_character`
(extract_characters.py lines 250-255; `padding = 1`):
`min_x = max(0, min_x - 1)`, …, `max_x = min(original_width, max_x + 1)`. -/
def save_character_box (ps : List Prim) (W H : ℚ) : Box ℚ :=
  let b := prim_bbox ps
  ⟨pyMax 0 (b.minX - 1), pyMax 0 (b.minY - 1), pyMin W (b.maxX + 1), pyMin H (b.maxY + 1)⟩

/-- The emitted local canvas size of `save_character`
(extract_characters.py lines 257-258): `width = max_x - min_x`,
`height = max_y - min_y`. -/
def save_character_size (ps : List Prim) (W H : ℚ) : ℚ × ℚ :=
  let b := save_character_box ps W H
  (b.maxX - b.minX, b.maxY - b.minY)

/-- The unpadded bounding box of a raster region
(extract_characters_simple.py lines 200-201: `np.min/np.max` over the
member cells `(y, x)`; junk value on the empty list). -/
def np_bbox (cells : List (ℤ × ℤ)) : Box ℤ :=
  match cells with
  | [] => ⟨0, 0, 0, 0⟩
  | c :: rest =>
    ⟨rest.foldl (fun m q => min m q.2) c.2,
     rest.foldl (fun m q => min m q.1) c.1,
     rest.foldl (fun m q => max m q.2) c.2,
     rest.foldl (fun m q => max m q.1) c.1⟩

/-- The padded, clipped box of `extract_characters_from_image`
(extract_characters_simple.py lines 204-208; `padding = 2`; the inclusive
max indices are clipped to `img.width - 1` / `img.height - 1`). -/
def image_region_box (b : Box ℤ) (W H : ℤ) : Box ℤ :=
  ⟨max 0 (b.minX - 2), max 0 (b.minY - 2), min (W - 1) (b.maxX + 2), min (H - 1) (b.maxY + 2)⟩

/-- The size of `img.crop((min_x, min_y, max_x + 1, max_y + 1))`
(extract_characters_simple.py line 211). -/
def image_crop_size (b : Box ℤ) : ℤ × ℤ :=
  (b.maxX + 1 - b.minX, b.maxY + 1 - b.minY)

/- ## §5 Colour decoding -/

/-- A hexadecimal digit as accepted by Python's `int(s, 16)` on the
two-character slices taken by the colour decoder. -/
def isHexDigit (c : Char) : Bool :=
  c.isDigit ∨ ('a' ≤ c ∧ c ≤ 'f') ∨ ('A' ≤ c ∧ c ≤ 'F')

/-- The value of a hexadecimal digit. -/
def hexVal (c : Char) : ℕ :=
  if c.isDigit then c.toNat - '0'.toNat
  else if 'a' ≤ c ∧ c ≤ 'f' then c.toNat - 'a'.toNat + 10
  else c.toNat - 'A'.toNat + 10

/-- Python's `fill[a:b]` on an ASCII string. -/
def pySlice (s : String) (a b : ℕ) : String :=
  String.mk ((s.toList.drop a).take (b - a))

/-- `fill.startswith('#')`: the first character is `'#'`. -/
def startsWithHash (s : String) : Bool :=
  match s.toList with
  | c :: _ => c = '#'
  | [] => false

/-- `int(s, 16)` on a two-character slice.  Modelled from the code's use
sites: the slices are exactly two characters; a non-hexadecimal character
makes Python raise `ValueError`, modelled as `none`. -/
def pyIntHex2 (s : String) : Option ℕ :=
  match s.toList with
  | [c1, c2] => if isHexDigit c1 ∧ isHexDigit c2 then some (16 * hexVal c1 + hexVal c2) else none
  | _ => none

/-- The fill-colour decoder of extract_characters.py lines 312-329 (the same
block appears in extract_characters_simple.py lines 136-151): `#RRGGBB` and
`#RRGGBBAA` are parsed with `int(..., 16)` (whose failure propagates),
every other string decodes to opaque black `(0, 0, 0, 255)`. -/
def decodeFill (fill : String) : Option (ℕ × ℕ × ℕ × ℕ) :=
  if startsWithHash fill then
    if fill.length = 7 then
      match pyIntHex2 (pySlice fill 1 3), pyIntHex2 (pySlice fill 3 5),
          pyIntHex2 (pySlice fill 5 7) with
      | some r, some g, some b => some (r, g, b, 255)
      | _, _, _ => none
    else if fill.length = 9 then
      match pyIntHex2 (pySlice fill 1 3), pyIntHex2 (pySlice fill 3 5),
          pyIntHex2 (pySlice fill 5 7), pyIntHex2 (pySlice fill 7 9) with
      | some r, some g, some b, some a => some (r, g, b, a)
      | _, _, _, _ => none
    else some (0, 0, 0, 255)
  else some (0, 0, 0, 255)

/-- The fill normalisation of extract_characters.py lines 82-86:
`fill = rect.get('fill', '#000000'); if not fill or fill == 'none':
fill = '#000000'`. -/
def rect_fill (attr : Option String) : String :=
  let fill := attr.getD "#000000"
  if fill = "" ∨ fill = "none" then "#000000" else fill

/- ## §6 Temporary-file lifecycle: extract_characters_simple.py -/

/-- A filesystem side effect performed by the pipeline. -/
inductive FsOp
  | write (name : String)
  | remove (name : String)
deriving DecidableEq

/-- Sequential execution of steps, each a list of filesystem effects plus a
success flag; a raised exception (flag `false`) aborts the remaining steps
(there is no `try/finally` around these statements in the source). -/
def runSteps : List (List FsOp × Bool) → List FsOp × Bool
  | [] => ([], true)
  | (ops, ok) :: rest =>
    if ok then
      let r := runSteps rest
      (ops ++ r.1, r.2)
    else (ops, false)

/-- The embedded-image branch of `extract_characters`
(extract_characters_simple.py lines 37-49): write `temp_image.png`, run
`extract_characters_from_image` (which may raise, the parameter), then
`os.remove` — sequentially, with no exception handler. -/
def extract_characters_ops (processRaises : Bool) : List FsOp × Bool :=
  runSteps [([FsOp.write "temp_image.png"], true),
            ([], !processRaises),
            ([FsOp.remove "temp_image.png"], true)]

/-- `create_bitmap_from_svg` (extract_characters_simple.py lines 156-164):
save `temp_bitmap.png`, run `extract_characters_from_image` (which may
raise), then `os.remove` — again with no exception handler. -/
def create_bitmap_ops (processRaises : Bool) : List FsOp × Bool :=
  runSteps [([FsOp.write "temp_bitmap.png"], true),
            ([], !processRaises),
            ([FsOp.remove "temp_bitmap.png"], true)]

/-- A run leaks a temporary file when it writes it and never removes it. -/
def leaksFile (r : List FsOp × Bool) (name : String) : Prop :=
  FsOp.write name ∈ r.1 ∧ FsOp.remove name ∉ r.1

instance (r : List FsOp × Bool) (name : String) : Decidable (leaksFile r name) := by
  unfold leaksFile; infer_instance

/- ## §7 Derived notions used in the specifications -/

/-- Strict row-major order on `(y, x)` cells: the order in which
`label_connected_components` scans the grid. -/
def rmLT (a b : ℤ × ℤ) : Prop := a.1 < b.1 ∨ (a.1 = b.1 ∧ a.2 < b.2)

instance (a b : ℤ × ℤ) : Decidable (rmLT a b) := by
  unfold rmLT; infer_instance

/-- 8-connectivity between raster cells: `b` is one of the eight neighbours
of `a`. -/
def adjacent8 (a b : ℤ × ℤ) : Prop :=
  ∃ d ∈ directions8, b = (a.1 + d.1, a.2 + d.2)

instance (a b : ℤ × ℤ) : Decidable (adjacent8 a b) := by
  unfold adjacent8; infer_instance

/- ## §7a Concrete inputs used by counterexamples and witnesses -/

/-- A unit pixel primitive with black fill. -/
def prim1 (x y : ℚ) : Prim := ⟨x, y, 1, 1, "#000000"⟩

/-- Eleven primitives: a cluster of five (bucket `(0,0)`) and a separate
cluster of six (bucket `(50,0)`). -/
def vecBoundary : List Prim :=
  [prim1 0 0, prim1 1 0, prim1 2 0, prim1 3 0, prim1 4 0,
   prim1 1000 0, prim1 1001 0, prim1 1002 0, prim1 1003 0, prim1 1004 0, prim1 1005 0]

/-- Eight primitives, each 100 canvas units from the next, so no two share
or neighbour a grid bucket. -/
def scattered8 : List Prim :=
  [prim1 0 0, prim1 100 0, prim1 200 0, prim1 300 0,
   prim1 400 0, prim1 500 0, prim1 600 0, prim1 700 0]

/-- A `10 × 10` occupancy grid whose only foreground pixels are `(0,0)` and
`(1,1)` (diagonally adjacent), indexed `(y, x)`. -/
def diagGrid : ℤ → ℤ → Bool := fun y x => (y = 0 ∧ x = 0) ∨ (y = 1 ∧ x = 1)

/-- The same two diagonal pixels for the bitmap fallback, whose cells are
indexed `(x, y)`. -/
def diagGridXY : ℤ → ℤ → Bool := fun x y => (y = 0 ∧ x = 0) ∨ (y = 1 ∧ x = 1)

/-- A `1 × 21` occupancy grid: a run of 10 foreground pixels, one gap, and a
run of 9 foreground pixels. -/
def rasterBoundary : ℤ → ℤ → Bool := fun y x => y = 0 ∧ (x ≤ 9 ∨ (11 ≤ x ∧ x ≤ 19))

/-- Evaluation of the bucket grid of `vecBoundary` (the rational bucket
arithmetic is discharged by `norm_num`). -/
theorem buildGrid_vecBoundary :
    buildGrid vecBoundary = [((0, 0), [0, 1, 2, 3, 4]), ((50, 0), [5, 6, 7, 8, 9, 10])] := by
  show List.foldl _ _ _ = _
  norm_num [vecBoundary, prim1, List.enum, List.enumFrom, bucketKey, pyTrunc, grid_size,
    addToGrid, Prod.ext_iff]

/-- The clusterer finds the two clusters of `vecBoundary` in insertion
order. -/
theorem componentsOf_vecBoundary :
    componentsOf vecBoundary = [[0, 1, 2, 3, 4], [5, 6, 7, 8, 9, 10]] := by
  rw [componentsOf, buildGrid_vecBoundary]
  decide

/-- The noise filter keeps only the six-element cluster of `vecBoundary`. -/
theorem charactersOf_vecBoundary :
    charactersOf vecBoundary = [[5, 6, 7, 8, 9, 10]] := by
  rw [charactersOf, componentsOf_vecBoundary]
  decide

/- ## §8 Properties of pyMin/pyMax and of fold-computed extrema -/

theorem pyMin_le_left (a b : ℚ) : pyMin a b ≤ a := by
  rw [pyMin]; split_ifs with h
  · exact le_refl a
  · exact le_of_not_le h

theorem pyMin_le_right (a b : ℚ) : pyMin a b ≤ b := by
  rw [pyMin]; split_ifs with h
  · exact h
  · exact le_refl b

theorem le_pyMin {a b c : ℚ} (ha : c ≤ a) (hb : c ≤ b) : c ≤ pyMin a b := by
  rw [pyMin]; split_ifs with h
  · exact ha
  · exact hb

theorem le_pyMax_left (a b : ℚ) : a ≤ pyMax a b := by
  rw [pyMax]; split_ifs with h
  · exact le_refl a
  · exact le_of_not_le h

theorem le_pyMax_right (a b : ℚ) : b ≤ pyMax a b := by
  rw [pyMax]; split_ifs with h
  · exact h
  · exact le_refl b

theorem pyMax_le {a b c : ℚ} (ha : a ≤ c) (hb : b ≤ c) : pyMax a b ≤ c := by
  rw [pyMax]; split_ifs with h
  · exact ha
  · exact hb

theorem foldl_le_initQ {β : Type} (g : ℚ → β → ℚ) (h1 : ∀ m b, g m b ≤ m)
    (l : List β) (a : ℚ) : l.foldl g a ≤ a := by
  induction l generalizing a with
  | nil => exact le_refl a
  | cons b t ih => exact le_trans (ih (g a b)) (h1 a b)

theorem foldl_le_memQ {β : Type} (f : β → ℚ) (g : ℚ → β → ℚ)
    (h1 : ∀ m b, g m b ≤ m) (h2 : ∀ m b, g m b ≤ f b) (l : List β) (a : ℚ)
    (b : β) (hb : b ∈ l) : l.foldl g a ≤ f b := by
  induction l generalizing a with
  | nil => cases hb
  | cons c t ih =>
    rcases List.mem_cons.mp hb with h | h
    · subst h
      exact le_trans (foldl_le_initQ g h1 t (g a b)) (h2 a b)
    · exact ih (g a c) h

theorem init_le_foldlQ {β : Type} (g : ℚ → β → ℚ) (h1 : ∀ m b, m ≤ g m b)
    (l : List β) (a : ℚ) : a ≤ l.foldl g a := by
  induction l generalizing a with
  | nil => exact le_refl a
  | cons b t ih => exact le_trans (h1 a b) (ih (g a b))

theorem mem_le_foldlQ {β : Type} (f : β → ℚ) (g : ℚ → β → ℚ)
    (h1 : ∀ m b, m ≤ g m b) (h2 : ∀ m b, f b ≤ g m b) (l : List β) (a : ℚ)
    (b : β) (hb : b ∈ l) : f b ≤ l.foldl g a := by
  induction l generalizing a with
  | nil => cases hb
  | cons c t ih =>
    rcases List.mem_cons.mp hb with h | h
    · subst h
      exact le_trans (h2 a b) (init_le_foldlQ g h1 t (g a b))
    · exact ih (g a c) h

theorem foldl_le_initZ {β : Type} (g : ℤ → β → ℤ) (h1 : ∀ m b, g m b ≤ m)
    (l : List β) (a : ℤ) : l.foldl g a ≤ a := by
  induction l generalizing a with
  | nil => exact le_refl a
  | cons b t ih => exact le_trans (ih (g a b)) (h1 a b)

theorem foldl_le_memZ {β : Type} (f : β → ℤ) (g : ℤ → β → ℤ)
    (h1 : ∀ m b, g m b ≤ m) (h2 : ∀ m b, g m b ≤ f b) (l : List β) (a : ℤ)
    (b : β) (hb : b ∈ l) : l.foldl g a ≤ f b := by
  induction l generalizing a with
  | nil => cases hb
  | cons c t ih =>
    rcases List.mem_cons.mp hb with h | h
    · subst h
      exact le_trans (foldl_le_initZ g h1 t (g a b)) (h2 a b)
    · exact ih (g a c) h

theorem init_le_foldlZ {β : Type} (g : ℤ → β → ℤ) (h1 : ∀ m b, m ≤ g m b)
    (l : List β) (a : ℤ) : a ≤ l.foldl g a := by
  induction l generalizing a with
  | nil => exact le_refl a
  | cons b t ih => exact le_trans (h1 a b) (ih (g a b))

theorem mem_le_foldlZ {β : Type} (f : β → ℤ) (g : ℤ → β → ℤ)
    (h1 : ∀ m b, m ≤ g m b) (h2 : ∀ m b, f b ≤ g m b) (l : List β) (a : ℤ)
    (b : β) (hb : b ∈ l) : f b ≤ l.foldl g a := by
  induction l generalizing a with
  | nil => cases hb
  | cons c t ih =>
    rcases List.mem_cons.mp hb with h | h
    · subst h
      exact le_trans (h2 a b) (init_le_foldlZ g h1 t (g a b))
    · exact ih (g a c) h

/- ## §9 Claim C4 — padded box formula and canvas clipping -/

/-- Claim C4 counterexample: the raster region encoder clips the padded
inclusive max index to `W - 1`, not to `W`; for the unpadded box
`(0,0)-(28,28)` with padding 2 on a 30×30 canvas the code produces
`maxX' = 29`, while the claimed formula `min(W, maxX + p)` gives 30. -/
theorem C4_counterexample :
    image_region_box ⟨0, 0, 28, 28⟩ 30 30 = ⟨0, 0, 29, 29⟩ ∧
    (image_region_box ⟨0, 0, 28, 28⟩ 30 30).maxX ≠ min 30 (28 + 2) := by
  decide

/-- Claim C4 (amended): the vector encoder (`save_character`, padding 1)
clips to `max 0 (min - 1)` / `min W (max + 1)` and so never leaves the
canvas; the raster encoder (`extract_characters_from_image`, padding 2)
clips its inclusive max indices to `W - 1` / `H - 1`, again never leaving
the canvas; the box `(0,0)-(5,5)` with padding 2 on a 30×30 canvas clips to
`(0,0)-(7,7)`. -/
theorem C4_amended :
    (∀ (ps : List Prim) (W H : ℚ),
      0 ≤ (save_character_box ps W H).minX ∧ 0 ≤ (save_character_box ps W H).minY ∧
      (save_character_box ps W H).maxX ≤ W ∧ (save_character_box ps W H).maxY ≤ H) ∧
    (∀ (b : Box ℤ) (W H : ℤ),
      0 ≤ (image_region_box b W H).minX ∧ 0 ≤ (image_region_box b W H).minY ∧
      (image_region_box b W H).maxX ≤ W - 1 ∧ (image_region_box b W H).maxY ≤ H - 1) ∧
    image_region_box ⟨0, 0, 5, 5⟩ 30 30 = ⟨0, 0, 7, 7⟩ ∧
    save_character_box [⟨0, 0, 5, 5, "#000000"⟩] 30 30 = ⟨0, 0, 6, 6⟩ := by
  refine ⟨fun ps W H => ?_, fun b W H => ?_, by decide, ?_⟩
  · simp only [save_character_box]
    exact ⟨le_pyMax_left _ _, le_pyMax_left _ _, pyMin_le_left _ _, pyMin_le_left _ _⟩
  · simp only [image_region_box]
    exact ⟨le_max_left _ _, le_max_left _ _, min_le_left _ _, min_le_left _ _⟩
  · norm_num [save_character_box, prim_bbox, pyMin, pyMax, Box.mk.injEq]

/- ## §10 Claim C9 — temporary-file lifecycle -/

/-- Claim C9 counterexample: when `extract_characters_from_image` raises,
the embedded-image branch of `extract_characters` has already written
`temp_image.png` but never reaches the `os.remove` call, so the run leaks
the temporary file. -/
theorem C9_counterexample : leaksFile (extract_characters_ops true) "temp_image.png" := by
  decide

/-- Claim C9 (amended): both temporary artifacts are removed on the normal
exit path, but on the path where processing the artifact raises, the
`os.remove` that follows it sequentially is never executed and the file
leaks. -/
theorem C9_amended :
    ¬ leaksFile (extract_characters_ops false) "temp_image.png" ∧
    leaksFile (extract_characters_ops true) "temp_image.png" ∧
    ¬ leaksFile (create_bitmap_ops false) "temp_bitmap.png" ∧
    leaksFile (create_bitmap_ops true) "temp_bitmap.png" := by
  decide

/- ## §11 Claim C10 — fill-colour decoding -/

/-- Claim C10 counterexample: `"#zzzzzz"` starts with `'#'` and has length
7, so the decoder reaches `int(fill[1:3], 16)`, which raises on the
non-hexadecimal digits: decoding fails, contradicting "no fill value ever
causes decoding to fail". -/
theorem C10_counterexample : decodeFill "#zzzzzz" = none := by
  decide

/-- Claim C10 (amended): a fill string that does not start with `'#'`, or
whose length is neither 7 nor 9, decodes to opaque black; a missing, empty,
or `'none'` fill attribute is normalised to `'#000000'`; but a `'#'`-string
of length 7 or 9 containing a non-hexadecimal character makes the decoder
fail. -/
theorem C10_amended :
    (∀ s, startsWithHash s = false → decodeFill s = some (0, 0, 0, 255)) ∧
    (∀ s, s.length ≠ 7 → s.length ≠ 9 → decodeFill s = some (0, 0, 0, 255)) ∧
    rect_fill none = "#000000" ∧
    rect_fill (some "") = "#000000" ∧
    rect_fill (some "none") = "#000000" ∧
    decodeFill "#zzzzzz" = none := by
  refine ⟨fun s hs => ?_, fun s h7 h9 => ?_, by decide, by decide, by decide, by decide⟩
  · simp [decodeFill, hs]
  · by_cases hs : startsWithHash s
    · simp [decodeFill, hs, h7, h9]
    · simp [decodeFill, hs]

/-- Claim C10 witness: the amended theorem applied to the concrete fills
`"red"` (no `'#'`) and `"#ff00"` (length 5). -/
theorem C10_witness :
    decodeFill "red" = some (0, 0, 0, 255) ∧ decodeFill "#ff00" = some (0, 0, 0, 255) :=
  ⟨C10_amended.1 "red" (by decide), C10_amended.2.1 "#ff00" (by decide) (by decide)⟩

/- ## §12 Claim C6 — small-input shortcut of the clusterer -/

/-- Claim C6 counterexample: the empty primitive list has fewer than 10
primitives, but `extract_characters_from_svg` returns at the
`if not pixels:` guard and emits zero regions, not one. -/
theorem C6_counterexample :
    extractRegions [] = [] ∧ ([] : List Prim).length < 10 ∧
    extractRegions [] ≠ [List.range ([] : List Prim).length] := by
  refine ⟨by decide, by decide, ?_⟩
  decide

/-- Claim C6 (amended): for every nonempty input with fewer than 10
primitives the clusterer is skipped and one region containing every
primitive (all indices, in order) is emitted; the empty input emits no
region at all. -/
theorem C6_amended :
    (∀ ps : List Prim, ps ≠ [] → ps.length < 10 → extractRegions ps = [List.range ps.length]) ∧
    extractRegions [] = [] := by
  refine ⟨fun ps h1 h2 => ?_, by decide⟩
  simp [extractRegions, h1, h2]

/-- Claim C6 witness: eight scattered primitives, no two of which share or
neighbour a bucket, are still emitted as a single region of all eight. -/
theorem C6_witness : extractRegions scattered8 = [List.range scattered8.length] :=
  C6_amended.1 scattered8 (by decide) (by decide)

/- ## §13 Claim C5 — local-frame encoding invariants -/

/-- The unpadded primitive bounding box bounds every member. -/
theorem prim_bbox_le (p0 : Prim) (rest : List Prim) (p : Prim) (hp : p ∈ p0 :: rest) :
    (prim_bbox (p0 :: rest)).minX ≤ p.x ∧ (prim_bbox (p0 :: rest)).minY ≤ p.y ∧
    p.x + p.w ≤ (prim_bbox (p0 :: rest)).maxX ∧ p.y + p.h ≤ (prim_bbox (p0 :: rest)).maxY := by
  simp only [prim_bbox]
  rcases List.mem_cons.mp hp with h | h
  · subst h
    refine ⟨?_, ?_, ?_, ?_⟩
    · apply foldl_le_initQ
      intro m q; exact pyMin_le_left m q.x
    · apply foldl_le_initQ
      intro m q; exact pyMin_le_left m q.y
    · apply init_le_foldlQ
      intro m q; exact le_pyMax_left m (q.x + q.w)
    · apply init_le_foldlQ
      intro m q; exact le_pyMax_left m (q.y + q.h)
  · refine ⟨?_, ?_, ?_, ?_⟩
    · apply foldl_le_memQ (fun (q : Prim) => q.x)
      · intro m q; exact pyMin_le_left m q.x
      · intro m q; exact pyMin_le_right m q.x
      · exact h
    · apply foldl_le_memQ (fun (q : Prim) => q.y)
      · intro m q; exact pyMin_le_left m q.y
      · intro m q; exact pyMin_le_right m q.y
      · exact h
    · apply mem_le_foldlQ (fun (q : Prim) => q.x + q.w)
      · intro m q; exact le_pyMax_left m (q.x + q.w)
      · intro m q; exact le_pyMax_right m (q.x + q.w)
      · exact h
    · apply mem_le_foldlQ (fun (q : Prim) => q.y + q.h)
      · intro m q; exact le_pyMax_left m (q.y + q.h)
      · intro m q; exact le_pyMax_right m (q.y + q.h)
      · exact h

/-- The unpadded raster bounding box (`np.min`/`np.max`) bounds every member
cell. -/
theorem np_bbox_le (c0 : ℤ × ℤ) (rest : List (ℤ × ℤ)) (c : ℤ × ℤ) (hc : c ∈ c0 :: rest) :
    (np_bbox (c0 :: rest)).minX ≤ c.2 ∧ (np_bbox (c0 :: rest)).minY ≤ c.1 ∧
    c.2 ≤ (np_bbox (c0 :: rest)).maxX ∧ c.1 ≤ (np_bbox (c0 :: rest)).maxY := by
  simp only [np_bbox]
  rcases List.mem_cons.mp hc with h | h
  · subst h
    refine ⟨?_, ?_, ?_, ?_⟩
    · apply foldl_le_initZ
      intro m q; exact min_le_left m q.2
    · apply foldl_le_initZ
      intro m q; exact min_le_left m q.1
    · apply init_le_foldlZ
      intro m q; exact le_max_left m q.2
    · apply init_le_foldlZ
      intro m q; exact le_max_left m q.1
  · refine ⟨?_, ?_, ?_, ?_⟩
    · apply foldl_le_memZ (fun (q : ℤ × ℤ) => q.2)
      · intro m q; exact min_le_left m q.2
      · intro m q; exact min_le_right m q.2
      · exact h
    · apply foldl_le_memZ (fun (q : ℤ × ℤ) => q.1)
      · intro m q; exact min_le_left m q.1
      · intro m q; exact min_le_right m q.1
      · exact h
    · apply mem_le_foldlZ (fun (q : ℤ × ℤ) => q.2)
      · intro m q; exact le_max_left m q.2
      · intro m q; exact le_max_right m q.2
      · exact h
    · apply mem_le_foldlZ (fun (q : ℤ × ℤ) => q.1)
      · intro m q; exact le_max_left m q.1
      · intro m q; exact le_max_right m q.1
      · exact h

/-- Claim C5: the emitted local canvas is exactly the padded box extent, and
every member re-expressed relative to `(minX', minY')` has non-negative
local coordinates and lies inside the local canvas — for the vector encoder
(`save_character` / `save_character_as_png`) under the member-on-canvas
hypothesis, and for the raster crop of `extract_characters_from_image` under
the member-in-grid hypothesis. -/
theorem C5_encoding_invariants :
    (∀ (ps : List Prim) (W H : ℚ), ps ≠ [] →
      (∀ p ∈ ps, 0 ≤ p.x ∧ 0 ≤ p.y ∧ p.x + p.w ≤ W ∧ p.y + p.h ≤ H) →
      save_character_size ps W H =
        ((save_character_box ps W H).maxX - (save_character_box ps W H).minX,
         (save_character_box ps W H).maxY - (save_character_box ps W H).minY) ∧
      ∀ p ∈ ps,
        0 ≤ p.x - (save_character_box ps W H).minX ∧
        0 ≤ p.y - (save_character_box ps W H).minY ∧
        p.x - (save_character_box ps W H).minX + p.w ≤ (save_character_size ps W H).1 ∧
        p.y - (save_character_box ps W H).minY + p.h ≤ (save_character_size ps W H).2) ∧
    (∀ (cells : List (ℤ × ℤ)) (h w : ℕ), cells ≠ [] →
      (∀ c ∈ cells, inBounds h w c) →
      ∀ c ∈ cells,
        0 ≤ c.2 - (image_region_box (np_bbox cells) (w : ℤ) (h : ℤ)).minX ∧
        0 ≤ c.1 - (image_region_box (np_bbox cells) (w : ℤ) (h : ℤ)).minY ∧
        c.2 - (image_region_box (np_bbox cells) (w : ℤ) (h : ℤ)).minX <
          (image_crop_size (image_region_box (np_bbox cells) (w : ℤ) (h : ℤ))).1 ∧
        c.1 - (image_region_box (np_bbox cells) (w : ℤ) (h : ℤ)).minY <
          (image_crop_size (image_region_box (np_bbox cells) (w : ℤ) (h : ℤ))).2) := by
  constructor
  · intro ps W H hne hcanvas
    refine ⟨rfl, fun p hp => ?_⟩
    match ps with
    | p0 :: rest =>
      have hb := prim_bbox_le p0 rest p hp
      have hc := hcanvas p hp
      simp only [save_character_size, save_character_box]
      have h1 : pyMax 0 ((prim_bbox (p0 :: rest)).minX - 1) ≤ p.x :=
        pyMax_le hc.1 (by linarith [hb.1])
      have h2 : pyMax 0 ((prim_bbox (p0 :: rest)).minY - 1) ≤ p.y :=
        pyMax_le hc.2.1 (by linarith [hb.2.1])
      have h3 : p.x + p.w ≤ pyMin W ((prim_bbox (p0 :: rest)).maxX + 1) :=
        le_pyMin hc.2.2.1 (by linarith [hb.2.2.1])
      have h4 : p.y + p.h ≤ pyMin H ((prim_bbox (p0 :: rest)).maxY + 1) :=
        le_pyMin hc.2.2.2 (by linarith [hb.2.2.2])
      exact ⟨by linarith, by linarith, by linarith, by linarith⟩
  · intro cells h w hne hgrid c hc
    match cells with
    | c0 :: rest =>
      have hb := np_bbox_le c0 rest c hc
      have hin := hgrid c hc
      rcases hin with ⟨hy0, hyh, hx0, hxw⟩
      simp only [image_region_box, image_crop_size]
      have h1 : max 0 ((np_bbox (c0 :: rest)).minX - 2) ≤ c.2 :=
        max_le hx0 (by linarith [hb.1])
      have h2 : max 0 ((np_bbox (c0 :: rest)).minY - 2) ≤ c.1 :=
        max_le hy0 (by linarith [hb.2.1])
      have h3 : c.2 ≤ min ((w : ℤ) - 1) ((np_bbox (c0 :: rest)).maxX + 2) :=
        le_min (by linarith) (by linarith [hb.2.2.1])
      have h4 : c.1 ≤ min ((h : ℤ) - 1) ((np_bbox (c0 :: rest)).maxY + 2) :=
        le_min (by linarith) (by linarith [hb.2.2.2])
      exact ⟨by linarith, by linarith, by linarith, by linarith⟩

/-- Claim C5 witness: the encoding invariants at a one-primitive region on a
30×30 canvas and a one-pixel raster region on a 10×10 grid. -/
theorem C5_witness :
    0 ≤ (prim1 0 0).x - (save_character_box [prim1 0 0] 30 30).minX ∧
    0 ≤ (((0 : ℤ), (0 : ℤ)) : ℤ × ℤ).2 -
      (image_region_box (np_bbox [((0 : ℤ), (0 : ℤ))]) 10 10).minX := by
  constructor
  · exact ((C5_encoding_invariants.1 [prim1 0 0] 30 30 (by decide)
      (by intro p hp; simp at hp; subst hp; norm_num [prim1])).2
      (prim1 0 0) (by simp)).1
  · exact ((C5_encoding_invariants.2 [((0 : ℤ), (0 : ℤ))] 10 10 (by decide)
      (by intro c hcm; simp at hcm; subst hcm; decide))
      ((0 : ℤ), (0 : ℤ)) (by simp)).1

/- ## §14 Claim C1 — noise-filter threshold boundary -/

/-- Claim C1 counterexample: the vector noise filter keeps a region only
when `len(character_pixels) > 5`, so the five-element cluster of
`vecBoundary` — exactly `t = 5` elements — is discarded, while the claim
says a region of exactly `t` elements is kept. -/
theorem C1_counterexample :
    [0, 1, 2, 3, 4] ∈ componentsOf vecBoundary ∧
    ([0, 1, 2, 3, 4] : List ℕ).length = 5 ∧
    [0, 1, 2, 3, 4] ∉ charactersOf vecBoundary := by
  refine ⟨?_, by decide, ?_⟩
  · rw [componentsOf_vecBoundary]; decide
  · rw [charactersOf_vecBoundary]; decide

/-- Claim C1 (amended): the raster filter discards a label exactly when its
pixel count is below 10 (so exactly `t = 10` is kept and `t - 1 = 9`
discarded), but the vector filter keeps a region exactly when its count
exceeds 5, so a five-element region is discarded and a six-element region
kept. -/
theorem C1_amended :
    (∀ (ps : List Prim) (c : List ℕ), c ∈ componentsOf ps →
      (c ∈ charactersOf ps ↔ 5 < c.length)) ∧
    (∀ (g : ℤ → ℤ → Bool) (h w : ℕ) (l : ℕ),
      l ∈ (List.range (label_connected_components g h w).2).map (· + 1) →
      (l ∈ keptLabels g h w ↔
        10 ≤ (np_where_label (label_connected_components g h w).1 h w l).length)) ∧
    charactersOf vecBoundary = [[5, 6, 7, 8, 9, 10]] ∧
    keptLabels rasterBoundary 1 21 = [1] ∧
    (np_where_label (label_connected_components rasterBoundary 1 21).1 1 21 1).length = 10 ∧
    (np_where_label (label_connected_components rasterBoundary 1 21).1 1 21 2).length = 9 := by
  refine ⟨fun ps c hc => ?_, fun g h w l hl => ?_, charactersOf_vecBoundary,
    by decide, by decide, by decide⟩
  · simp [charactersOf, hc]
  · simp [keptLabels, hl, Nat.not_lt]

/-- Claim C1 witness: the amended filter characterisation applied to the
six-element region of `vecBoundary` and to label 1 of `rasterBoundary`. -/
theorem C1_witness :
    ([5, 6, 7, 8, 9, 10] ∈ charactersOf vecBoundary ↔
      5 < ([5, 6, 7, 8, 9, 10] : List ℕ).length) ∧
    (1 ∈ keptLabels rasterBoundary 1 21 ↔
      10 ≤ (np_where_label (label_connected_components rasterBoundary 1 21).1 1 21 1).length) :=
  ⟨C1_amended.1 vecBoundary _ (by rw [componentsOf_vecBoundary]; decide),
   C1_amended.2.1 rasterBoundary 1 21 1 (by decide)⟩

/- ## §15 Invariants of the raster flood fill -/

/-- Every visited cell is an in-bounds foreground cell. -/
def VisitedOK (g : ℤ → ℤ → Bool) (h w : ℕ) (visited : List (ℤ × ℤ)) : Prop :=
  ∀ c ∈ visited, inBounds h w c ∧ g c.1 c.2

/-- A cell carries a non-zero label exactly when it has been visited. -/
def Bridge (visited : List (ℤ × ℤ)) (labeled : ℤ × ℤ → ℕ) : Prop :=
  ∀ c, labeled c ≠ 0 ↔ c ∈ visited

/-- Every visited cell not still pending in the queue has all its in-bounds
foreground 8-neighbours visited, with the same label. -/
def ClosedExcept (g : ℤ → ℤ → Bool) (h w : ℕ)
    (visited queue : List (ℤ × ℤ)) (labeled : ℤ × ℤ → ℕ) : Prop :=
  ∀ c ∈ visited, c ∉ queue → ∀ d ∈ directions8,
    inBounds h w (c.1 + d.1, c.2 + d.2) → g (c.1 + d.1) (c.2 + d.2) →
    (c.1 + d.1, c.2 + d.2) ∈ visited ∧ labeled (c.1 + d.1, c.2 + d.2) = labeled c

/-- The number of grid cells not yet visited. -/
def unvis (h w : ℕ) (visited : List (ℤ × ℤ)) : ℕ :=
  ((rowMajor h w).filter (fun c => c ∉ visited)).length

/-- Cells of the row-major scan list are exactly the in-bounds cells. -/
theorem rowMajor_mem (h w : ℕ) (c : ℤ × ℤ) : c ∈ rowMajor h w ↔ inBounds h w c := by
  obtain ⟨cy, cx⟩ := c
  constructor
  · intro hmem
    obtain ⟨y, hy, hmem2⟩ := List.mem_flatMap.mp hmem
    obtain ⟨x, hx, heq⟩ := List.mem_map.mp hmem2
    rw [List.mem_range] at hy hx
    injection heq with h1 h2
    exact ⟨by omega, by omega, by omega, by omega⟩
  · rintro ⟨h1, h2, h3, h4⟩
    refine List.mem_flatMap.mpr ⟨cy.toNat, List.mem_range.mpr (by omega), ?_⟩
    refine List.mem_map.mpr ⟨cx.toNat, List.mem_range.mpr (by omega), ?_⟩
    have e1 : ((cy.toNat : ℤ)) = cy := by omega
    have e2 : ((cx.toNat : ℤ)) = cx := by omega
    rw [e1, e2]

/-- A filter over a pointwise-stronger membership condition is shorter. -/
theorem filter_notMem_length_mono (L visited : List (ℤ × ℤ)) (n : ℤ × ℤ) :
    ((L.filter fun c => c ∉ n :: visited).length ≤ (L.filter fun c => c ∉ visited).length) := by
  apply List.Sublist.length_le
  apply List.monotone_filter_right
  intro a ha
  simp only [decide_eq_true_eq, List.mem_cons] at ha ⊢
  intro hmem
  exact ha (Or.inr hmem)

/-- Visiting a fresh in-list cell strictly shrinks the unvisited filter. -/
theorem filter_notMem_cons_length (L visited : List (ℤ × ℤ)) (n : ℤ × ℤ)
    (hn : n ∈ L) (hnv : n ∉ visited) :
    (L.filter fun c => c ∉ n :: visited).length + 1 ≤
      (L.filter fun c => c ∉ visited).length := by
  induction L with
  | nil => cases hn
  | cons a t ih =>
    by_cases hain : a = n
    · have h1 : (decide (a ∉ n :: visited)) = false := by
        simp [List.mem_cons, hain]
      have h2 : (decide (a ∉ visited)) = true := by
        simpa [hain] using hnv
      simp only [List.filter_cons, h1, h2, Bool.false_eq_true, if_false, if_true,
        List.length_cons]
      have hmono := filter_notMem_length_mono t visited n
      omega
    · have hmem : n ∈ t := by
        rcases List.mem_cons.mp hn with h | h
        · exact absurd h.symm hain
        · exact h
      by_cases hv : a ∈ visited
      · have h1 : (decide (a ∉ n :: visited)) = false := by
          simp [List.mem_cons, hv]
        have h2 : (decide (a ∉ visited)) = false := by simpa using hv
        simp only [List.filter_cons, h1, h2, Bool.false_eq_true, if_false]
        exact ih hmem
      · have h1 : (decide (a ∉ n :: visited)) = true := by
          simp [List.mem_cons, hv, hain]
        have h2 : (decide (a ∉ visited)) = true := by simpa using hv
        simp only [List.filter_cons, h1, h2, if_true, List.length_cons]
        have := ih hmem
        omega

/-- Visiting a fresh in-bounds cell strictly decreases `unvis`. -/
theorem unvis_cons (h w : ℕ) (visited : List (ℤ × ℤ)) (n : ℤ × ℤ)
    (hin : inBounds h w n) (hnv : n ∉ visited) :
    unvis h w (n :: visited) + 1 ≤ unvis h w visited :=
  filter_notMem_cons_length (rowMajor h w) visited n ((rowMajor_mem h w n).mpr hin) hnv

/-- `unvis` never grows when the visited set grows by one cell. -/
theorem unvis_cons_le (h w : ℕ) (visited : List (ℤ × ℤ)) (n : ℤ × ℤ) :
    unvis h w (n :: visited) ≤ unvis h w visited :=
  filter_notMem_length_mono (rowMajor h w) visited n

/-- Behaviour of one neighbour scan: the visited set grows exactly by the
newly enqueued cells, which are in-bounds unvisited foreground cells
labelled `l`; labels of previously visited cells (and of never-visited
cells) are untouched. -/
theorem floodNbrs_spec (g : ℤ → ℤ → Bool) (h w : ℕ) (l : ℕ) (c : ℤ × ℤ) :
    ∀ (ds added visited : List (ℤ × ℤ)) (labeled : ℤ × ℤ → ℕ)
      (q' v' : List (ℤ × ℤ)) (lab' : ℤ × ℤ → ℕ),
      floodNbrs g h w l c ds added visited labeled = (q', v', lab') →
      (∀ x ∈ visited, x ∈ v') ∧
      (∀ x ∈ v', x ∈ visited ∨
        (x ∈ q' ∧ inBounds h w x ∧ g x.1 x.2 ∧ lab' x = l ∧ x ∉ visited)) ∧
      (∀ x ∈ visited, lab' x = labeled x) ∧
      (∀ x ∈ q', x ∈ added ∨ (x ∈ v' ∧ lab' x = l ∧ x ∉ visited)) ∧
      (∀ x ∈ added, x ∈ q') ∧
      (∀ x, x ∉ v' → lab' x = labeled x) := by
  intro ds
  induction ds with
  | nil =>
    intro added visited labeled q' v' lab' heq
    rw [floodNbrs] at heq
    injection heq with h1 h23
    injection h23 with h2 h3
    subst h1; subst h2; subst h3
    exact ⟨fun x hx => hx, fun x hx => Or.inl hx, fun x _ => rfl,
      fun x hx => Or.inl hx, fun x hx => hx, fun x _ => rfl⟩
  | cons d ds ih =>
    intro added visited labeled q' v' lab' heq
    rw [floodNbrs] at heq
    split at heq
    case isTrue hcond =>
      obtain ⟨hin, hfg, hnv⟩ := hcond
      obtain ⟨F1, F2, F3, F4, F5, F6⟩ := ih (added ++ [(c.1 + d.1, c.2 + d.2)])
        ((c.1 + d.1, c.2 + d.2) :: visited) (setLabel labeled (c.1 + d.1, c.2 + d.2) l)
        q' v' lab' heq
      have hnn : (c.1 + d.1, c.2 + d.2) ∈ v' :=
        F1 _ (List.mem_cons_self _ _)
      have hlabn : lab' (c.1 + d.1, c.2 + d.2) = l := by
        rw [F3 _ (List.mem_cons_self _ _)]
        simp [setLabel]
      have hinq : (c.1 + d.1, c.2 + d.2) ∈ q' :=
        F5 _ (List.mem_append_right _ (List.mem_singleton.mpr rfl))
      refine ⟨?_, ?_, ?_, ?_, ?_, ?_⟩
      · intro x hx
        exact F1 x (List.mem_cons_of_mem _ hx)
      · intro x hx
        rcases F2 x hx with hx1 | hx2
        · rcases List.mem_cons.mp hx1 with rfl | hx1
          · exact Or.inr ⟨hinq, hin, hfg, hlabn, hnv⟩
          · exact Or.inl hx1
        · refine Or.inr ⟨hx2.1, hx2.2.1, hx2.2.2.1, hx2.2.2.2.1, ?_⟩
          intro hmem
          exact hx2.2.2.2.2 (List.mem_cons_of_mem _ hmem)
      · intro x hx
        rw [F3 x (List.mem_cons_of_mem _ hx)]
        have hxn : x ≠ (c.1 + d.1, c.2 + d.2) := fun hxeq => hnv (hxeq ▸ hx)
        simp [setLabel, hxn]
      · intro x hx
        rcases F4 x hx with hx1 | hx2
        · rcases List.mem_append.mp hx1 with hx1 | hx1
          · exact Or.inl hx1
          · rcases List.mem_singleton.mp hx1 with rfl
            exact Or.inr ⟨hnn, hlabn, hnv⟩
        · refine Or.inr ⟨hx2.1, hx2.2.1, ?_⟩
          intro hmem
          exact hx2.2.2 (List.mem_cons_of_mem _ hmem)
      · intro x hx
        exact F5 x (List.mem_append_left _ hx)
      · intro x hx
        rw [F6 x hx]
        have hxn : x ≠ (c.1 + d.1, c.2 + d.2) := by
          intro hxeq
          exact hx (hxeq ▸ F1 _ (List.mem_cons_self _ _))
        simp [setLabel, hxn]
    case isFalse hcond =>
      exact ih added visited labeled q' v' lab' heq

/-- One neighbour scan does not increase `unvis` plus the pending count. -/
theorem floodNbrs_measure (g : ℤ → ℤ → Bool) (h w : ℕ) (l : ℕ) (c : ℤ × ℤ) :
    ∀ (ds added visited : List (ℤ × ℤ)) (labeled : ℤ × ℤ → ℕ)
      (q' v' : List (ℤ × ℤ)) (lab' : ℤ × ℤ → ℕ),
      floodNbrs g h w l c ds added visited labeled = (q', v', lab') →
      unvis h w v' + q'.length ≤ unvis h w visited + added.length := by
  intro ds
  induction ds with
  | nil =>
    intro added visited labeled q' v' lab' heq
    rw [floodNbrs] at heq
    injection heq with h1 h23
    injection h23 with h2 h3
    subst h1; subst h2
    exact le_refl _
  | cons d ds ih =>
    intro added visited labeled q' v' lab' heq
    rw [floodNbrs] at heq
    split at heq
    case isTrue hcond =>
      obtain ⟨hin, hfg, hnv⟩ := hcond
      have := ih (added ++ [(c.1 + d.1, c.2 + d.2)])
        ((c.1 + d.1, c.2 + d.2) :: visited) (setLabel labeled (c.1 + d.1, c.2 + d.2) l)
        q' v' lab' heq
      have hdec := unvis_cons h w visited (c.1 + d.1, c.2 + d.2) hin hnv
      simp only [List.length_append, List.length_singleton] at this
      omega
    case isFalse hcond =>
      exact ih added visited labeled q' v' lab' heq

/-- One neighbour scan visits every in-bounds foreground neighbour of the
processed cell. -/
theorem floodNbrs_closes (g : ℤ → ℤ → Bool) (h w : ℕ) (l : ℕ) (c : ℤ × ℤ) :
    ∀ (ds added visited : List (ℤ × ℤ)) (labeled : ℤ × ℤ → ℕ)
      (q' v' : List (ℤ × ℤ)) (lab' : ℤ × ℤ → ℕ),
      floodNbrs g h w l c ds added visited labeled = (q', v', lab') →
      ∀ d ∈ ds, inBounds h w (c.1 + d.1, c.2 + d.2) →
        g (c.1 + d.1) (c.2 + d.2) → (c.1 + d.1, c.2 + d.2) ∈ v' := by
  intro ds
  induction ds with
  | nil =>
    intro added visited labeled q' v' lab' heq d hd
    cases hd
  | cons d0 ds ih =>
    intro added visited labeled q' v' lab' heq d hd hin hfg
    rw [floodNbrs] at heq
    rcases List.mem_cons.mp hd with rfl | hd
    · split at heq
      case isTrue hcond =>
        exact (floodNbrs_spec g h w l c ds _ _ _ _ _ _ heq).1 _ (List.mem_cons_self _ _)
      case isFalse hcond =>
        have hmem : (c.1 + d.1, c.2 + d.2) ∈ visited := by
          by_contra hnm
          exact hcond ⟨hin, hfg, hnm⟩
        exact (floodNbrs_spec g h w l c ds _ _ _ _ _ _ heq).1 _ hmem
    · split at heq
      case isTrue hcond =>
        exact ih _ _ _ _ _ _ heq d hd hin hfg
      case isFalse hcond =>
        exact ih _ _ _ _ _ _ heq d hd hin hfg

/-- The 8-neighbourhood is symmetric. -/
theorem directions8_symm : ∀ d ∈ directions8, (-d.1, -d.2) ∈ directions8 := by
  decide

/-- Safety of the flood fill, for any fuel: the visited set only grows, new
cells are in-bounds foreground cells labelled `l`, and labels of previously
visited cells and of never-visited cells are untouched. -/
theorem floodBFS_spec (g : ℤ → ℤ → Bool) (h w : ℕ) (l : ℕ) :
    ∀ (fuel : ℕ) (queue visited : List (ℤ × ℤ)) (labeled : ℤ × ℤ → ℕ)
      (v' : List (ℤ × ℤ)) (lab' : ℤ × ℤ → ℕ),
      floodBFS g h w l fuel queue visited labeled = (v', lab') →
      (∀ x ∈ queue, x ∈ visited) →
      (∀ x ∈ visited, x ∈ v') ∧
      (∀ x ∈ v', x ∈ visited ∨ (inBounds h w x ∧ g x.1 x.2 ∧ lab' x = l ∧ x ∉ visited)) ∧
      (∀ x ∈ visited, lab' x = labeled x) ∧
      (∀ x, x ∉ v' → lab' x = labeled x) := by
  intro fuel
  induction fuel with
  | zero =>
    intro queue visited labeled v' lab' heq hqv
    rw [floodBFS] at heq
    injection heq with h1 h2
    subst h1; subst h2
    exact ⟨fun x hx => hx, fun x hx => Or.inl hx, fun x _ => rfl, fun x _ => rfl⟩
  | succ fuel ih =>
    intro queue visited labeled v' lab' heq hqv
    match queue with
    | [] =>
      rw [floodBFS] at heq
      injection heq with h1 h2
      subst h1; subst h2
      exact ⟨fun x hx => hx, fun x hx => Or.inl hx, fun x _ => rfl, fun x _ => rfl⟩
    | c :: rest =>
      rw [floodBFS] at heq
      rcases hfn : floodNbrs g h w l c directions8 [] visited labeled with ⟨q1, v1, lab1⟩
      rw [hfn] at heq
      obtain ⟨F1, F2, F3, F4, _, F6⟩ := floodNbrs_spec g h w l c directions8 [] visited
        labeled q1 v1 lab1 hfn
      have hqv1 : ∀ x ∈ rest ++ q1, x ∈ v1 := by
        intro x hx
        rcases List.mem_append.mp hx with hx | hx
        · exact F1 x (hqv x (List.mem_cons_of_mem c hx))
        · rcases F4 x hx with hx1 | hx2
          · cases hx1
          · exact hx2.1
      obtain ⟨I1, I2, I3, I4⟩ := ih (rest ++ q1) v1 lab1 v' lab' heq hqv1
      refine ⟨?_, ?_, ?_, ?_⟩
      · intro x hx
        exact I1 x (F1 x hx)
      · intro x hx
        rcases I2 x hx with hx1 | hx2
        · rcases F2 x hx1 with hy1 | hy2
          · exact Or.inl hy1
          · refine Or.inr ⟨hy2.2.1, hy2.2.2.1, ?_, hy2.2.2.2.2⟩
            rw [I3 x hx1]
            exact hy2.2.2.2.1
        · refine Or.inr ⟨hx2.1, hx2.2.1, hx2.2.2.1, ?_⟩
          intro hmem
          exact hx2.2.2.2 (F1 x hmem)
      · intro x hx
        rw [I3 x (F1 x hx)]
        exact F3 x hx
      · intro x hx
        have hxv1 : x ∉ v1 := fun hmem => hx (I1 x hmem)
        rw [I4 x hx]
        exact F6 x hxv1

/-- With sufficient fuel, the flood fill drains its queue and leaves the
visited set closed under in-bounds foreground 8-adjacency, with adjacent
visited cells carrying equal labels. -/
theorem floodBFS_closed (g : ℤ → ℤ → Bool) (h w : ℕ) (l : ℕ) :
    ∀ (fuel : ℕ) (queue visited : List (ℤ × ℤ)) (labeled : ℤ × ℤ → ℕ)
      (v' : List (ℤ × ℤ)) (lab' : ℤ × ℤ → ℕ),
      floodBFS g h w l fuel queue visited labeled = (v', lab') →
      (∀ x ∈ queue, x ∈ visited) →
      (∀ q ∈ queue, labeled q = l) →
      ClosedExcept g h w visited queue labeled →
      VisitedOK g h w visited →
      unvis h w visited + queue.length ≤ fuel →
      ClosedExcept g h w v' [] lab' := by
  intro fuel
  induction fuel with
  | zero =>
    intro queue visited labeled v' lab' heq hqv hql hce hvok hfuel
    have hqe : queue = [] := by
      cases queue with
      | nil => rfl
      | cons a t => simp at hfuel
    subst hqe
    rw [floodBFS] at heq
    injection heq with h1 h2
    subst h1; subst h2
    exact hce
  | succ fuel ih =>
    intro queue visited labeled v' lab' heq hqv hql hce hvok hfuel
    match queue with
    | [] =>
      rw [floodBFS] at heq
      injection heq with h1 h2
      subst h1; subst h2
      exact hce
    | c :: rest =>
      rw [floodBFS] at heq
      rcases hfn : floodNbrs g h w l c directions8 [] visited labeled with ⟨q1, v1, lab1⟩
      rw [hfn] at heq
      obtain ⟨F1, F2, F3, F4, _, F6⟩ := floodNbrs_spec g h w l c directions8 [] visited
        labeled q1 v1 lab1 hfn
      have hcv : c ∈ visited := hqv c (List.mem_cons_self c rest)
      have hlabc : labeled c = l := hql c (List.mem_cons_self c rest)
      have hqv1 : ∀ x ∈ rest ++ q1, x ∈ v1 := by
        intro x hx
        rcases List.mem_append.mp hx with hx | hx
        · exact F1 x (hqv x (List.mem_cons_of_mem c hx))
        · rcases F4 x hx with hx1 | hx2
          · cases hx1
          · exact hx2.1
      have hql1 : ∀ q ∈ rest ++ q1, lab1 q = l := by
        intro q hq
        rcases List.mem_append.mp hq with hq | hq
        · rw [F3 q (hqv q (List.mem_cons_of_mem c hq))]
          exact hql q (List.mem_cons_of_mem c hq)
        · rcases F4 q hq with hq1 | hq2
          · cases hq1
          · exact hq2.2.1
      have hvok1 : VisitedOK g h w v1 := by
        intro x hx
        rcases F2 x hx with hx1 | hx2
        · exact hvok x hx1
        · exact ⟨hx2.2.1, hx2.2.2.1⟩
      have hce1 : ClosedExcept g h w v1 (rest ++ q1) lab1 := by
        intro u hu hnq d hd hin hfg
        rcases F2 u hu with huv | hunew
        · by_cases huc : u = c
          · subst huc
            have hnmem : (u.1 + d.1, u.2 + d.2) ∈ v1 :=
              floodNbrs_closes g h w l u directions8 [] visited labeled q1 v1 lab1 hfn
                d hd hin hfg
            have hlabu : lab1 u = l := by rw [F3 u huv]; exact hlabc
            refine ⟨hnmem, ?_⟩
            rcases F2 _ hnmem with hnv | hnnew
            · rw [F3 _ hnv, hlabu]
              by_cases hnq2 : (u.1 + d.1, u.2 + d.2) ∈ (u :: rest)
              · rcases List.mem_cons.mp hnq2 with hne | hnr
                · rw [hne, hlabc]
                · exact hql _ (List.mem_cons_of_mem u hnr)
              · have hsym := directions8_symm d hd
                have hcl := hce _ hnv hnq2 (-d.1, -d.2) hsym
                have hpt1 : (u.1 + d.1, u.2 + d.2).1 + (-d.1, -d.2).1 = u.1 := by
                  dsimp only; ring
                have hpt2 : (u.1 + d.1, u.2 + d.2).2 + (-d.1, -d.2).2 = u.2 := by
                  dsimp only; ring
                rw [hpt1, hpt2, Prod.mk.eta] at hcl
                have hres := hcl (hvok u huv).1 (hvok u huv).2
                rw [← hres.2]
                exact hlabc
            · rw [hnnew.2.2.2.1, hlabu]
          · have hunq : u ∉ (c :: rest) := by
              intro hmem
              rcases List.mem_cons.mp hmem with hmem | hmem
              · exact huc hmem
              · exact hnq (List.mem_append_left q1 hmem)
            have hcl := hce u huv hunq d hd hin hfg
            refine ⟨F1 _ hcl.1, ?_⟩
            rw [F3 _ hcl.1, F3 u huv]
            exact hcl.2
        · exfalso
          exact hnq (List.mem_append_right rest hunew.1)
      have hmeas := floodNbrs_measure g h w l c directions8 [] visited labeled q1 v1 lab1 hfn
      have hfuel1 : unvis h w v1 + (rest ++ q1).length ≤ fuel := by
        simp only [List.length_append]
        simp only [List.length_nil, List.length_cons] at hmeas hfuel
        omega
      exact ih (rest ++ q1) v1 lab1 v' lab' heq hqv1 hql1 hce1 hvok1 hfuel1

/-- Length of the row-major scan list. -/
theorem rowMajor_length (h w : ℕ) : (rowMajor h w).length = h * w := by
  simp [rowMajor, Function.comp]
  induction h with
  | zero => simp
  | succ n ih =>
    rw [List.range_succ]
    simp [ih]
    ring

/-- The unvisited count is bounded by the grid size. -/
theorem unvis_le (h w : ℕ) (visited : List (ℤ × ℤ)) : unvis h w visited ≤ h * w := by
  rw [unvis, ← rowMajor_length h w]
  exact List.length_filter_le _ _

/-- Invariant preservation along the outer labelling scan: the
visited/label bridge, the visited-cells characterisation, adjacency closure
with equal labels, the label range, label surjectivity, label persistence,
monotone growth of the visited set, and coverage of all scanned foreground
cells. -/
theorem labelLoop_spec (g : ℤ → ℤ → Bool) (h w : ℕ) :
    ∀ (cs visited : List (ℤ × ℤ)) (labeled : ℤ × ℤ → ℕ) (cl : ℕ)
      (lab' : ℤ × ℤ → ℕ) (cl' : ℕ) (v' : List (ℤ × ℤ)),
      labelLoop g h w cs visited labeled cl = (lab', cl', v') →
      (∀ c ∈ cs, inBounds h w c) →
      Bridge visited labeled →
      VisitedOK g h w visited →
      ClosedExcept g h w visited [] labeled →
      (∀ c, labeled c ≤ cl) →
      (∀ k, 1 ≤ k → k ≤ cl → ∃ c, labeled c = k) →
      Bridge v' lab' ∧ VisitedOK g h w v' ∧ ClosedExcept g h w v' [] lab' ∧
      (∀ c, lab' c ≤ cl') ∧ cl ≤ cl' ∧
      (∀ k, 1 ≤ k → k ≤ cl' → ∃ c, lab' c = k) ∧
      (∀ c ∈ visited, lab' c = labeled c) ∧
      (∀ c ∈ visited, c ∈ v') ∧
      (∀ c ∈ cs, g c.1 c.2 → c ∈ v') := by
  intro cs
  induction cs with
  | nil =>
    intro visited labeled cl lab' cl' v' heq hin hbr hvok hce hle honto
    rw [labelLoop] at heq
    injection heq with h1 h2
    injection h2 with h2 h3
    subst h1; subst h2; subst h3
    exact ⟨hbr, hvok, hce, hle, le_refl cl, honto, fun c _ => rfl, fun c hc => hc,
      fun c hc => absurd hc (List.not_mem_nil c)⟩
  | cons c cs ih =>
    intro visited labeled cl lab' cl' v' heq hin hbr hvok hce hle honto
    rw [labelLoop] at heq
    split at heq
    case isTrue hcond =>
      obtain ⟨hfg, hnv⟩ := hcond
      rcases hbfs : floodBFS g h w (cl + 1) (h * w + 1) [c] (c :: visited)
        (setLabel labeled c (cl + 1)) with ⟨v1, lab1⟩
      rw [hbfs] at heq
      have hcin : inBounds h w c := hin c (List.mem_cons_self c cs)
      -- the seed state
      have hbr0 : Bridge (c :: visited) (setLabel labeled c (cl + 1)) := by
        intro x
        by_cases hxc : x = c
        · subst hxc
          simp [setLabel, List.mem_cons]
        · simp only [setLabel, if_neg hxc, List.mem_cons]
          rw [hbr x]
          constructor
          · exact Or.inr
          · rintro (hx | hx)
            · exact absurd hx hxc
            · exact hx
      have hvok0 : VisitedOK g h w (c :: visited) := by
        intro x hx
        rcases List.mem_cons.mp hx with rfl | hx
        · exact ⟨hcin, hfg⟩
        · exact hvok x hx
      have hce0 : ClosedExcept g h w (c :: visited) [c] (setLabel labeled c (cl + 1)) := by
        intro u hu hnq d hd hin2 hfg2
        have huc : u ≠ c := by
          intro hmem
          exact hnq (hmem ▸ List.mem_singleton.mpr rfl)
        have huv : u ∈ visited := by
          rcases List.mem_cons.mp hu with h1 | h1
          · exact absurd h1 huc
          · exact h1
        have hres := hce u huv (List.not_mem_nil u) d hd hin2 hfg2
        have hnc : (u.1 + d.1, u.2 + d.2) ≠ c := by
          intro hmem
          exact hnv (hmem ▸ hres.1)
        refine ⟨List.mem_cons_of_mem c hres.1, ?_⟩
        simp only [setLabel, if_neg hnc, if_neg huc]
        exact hres.2
      obtain ⟨B1, B2, B3, B4⟩ := floodBFS_spec g h w (cl + 1) (h * w + 1) [c]
        (c :: visited) (setLabel labeled c (cl + 1)) v1 lab1 hbfs
        (by intro x hx; rw [List.mem_singleton.mp hx]; exact List.mem_cons_self c visited)
      have hbr1 : Bridge v1 lab1 := by
        intro x
        constructor
        · intro hne
          by_cases hx : x ∈ v1
          · exact hx
          · exfalso
            rw [B4 x hx] at hne
            exact hx (B1 x ((hbr0 x).mp hne))
        · intro hx
          rcases B2 x hx with hx1 | hx2
          · rw [B3 x hx1]
            exact (hbr0 x).mpr hx1
          · rw [hx2.2.2.1]
            omega
      have hvok1 : VisitedOK g h w v1 := by
        intro x hx
        rcases B2 x hx with hx1 | hx2
        · exact hvok0 x hx1
        · exact ⟨hx2.1, hx2.2.1⟩
      have hce1 : ClosedExcept g h w v1 [] lab1 :=
        floodBFS_closed g h w (cl + 1) (h * w + 1) [c] (c :: visited)
          (setLabel labeled c (cl + 1)) v1 lab1 hbfs
          (by intro x hx; rw [List.mem_singleton.mp hx]; exact List.mem_cons_self c visited)
          (by intro q hq; rw [List.mem_singleton.mp hq]; simp [setLabel])
          hce0 hvok0
          (by
            have := unvis_le h w (c :: visited)
            simp only [List.length_singleton]
            omega)
      have hle1 : ∀ x, lab1 x ≤ cl + 1 := by
        intro x
        by_cases hx : x ∈ v1
        · rcases B2 x hx with hx1 | hx2
          · rw [B3 x hx1]
            by_cases hxc : x = c
            · subst hxc; simp [setLabel]
            · simp only [setLabel, if_neg hxc]
              exact le_trans (hle x) (Nat.le_succ cl)
          · rw [hx2.2.2.1]
        · rw [B4 x hx]
          by_cases hxc : x = c
          · subst hxc; simp [setLabel]
          · simp only [setLabel, if_neg hxc]
            exact le_trans (hle x) (Nat.le_succ cl)
      have honto1 : ∀ k, 1 ≤ k → k ≤ cl + 1 → ∃ x, lab1 x = k := by
        intro k hk1 hk2
        by_cases hkc : k = cl + 1
        · refine ⟨c, ?_⟩
          rw [B3 c (List.mem_cons_self c visited)]
          simp [setLabel, hkc]
        · have hk3 : k ≤ cl := by omega
          obtain ⟨x, hx⟩ := honto k hk1 hk3
          have hxv : x ∈ visited := (hbr x).mp (by omega)
          have hxc : x ≠ c := fun hxeq => hnv (hxeq ▸ hxv)
          refine ⟨x, ?_⟩
          rw [B3 x (List.mem_cons_of_mem c hxv)]
          simp only [setLabel, if_neg hxc]
          exact hx
      obtain ⟨I1, I2, I3, I4, I5, I6, I7, I8, I9⟩ := ih v1 lab1 (cl + 1) lab' cl' v' heq
        (fun x hx => hin x (List.mem_cons_of_mem c hx)) hbr1 hvok1 hce1 hle1 honto1
      refine ⟨I1, I2, I3, I4, by omega, I6, ?_, ?_, ?_⟩
      · intro x hx
        have hxc : x ≠ c := fun hxeq => hnv (hxeq ▸ hx)
        rw [I7 x (B1 x (List.mem_cons_of_mem c hx)), B3 x (List.mem_cons_of_mem c hx)]
        simp only [setLabel, if_neg hxc]
      · intro x hx
        exact I8 x (B1 x (List.mem_cons_of_mem c hx))
      · intro x hx hxfg
        rcases List.mem_cons.mp hx with rfl | hx
        · exact I8 x (B1 x (List.mem_cons_self x visited))
        · exact I9 x hx hxfg
    case isFalse hcond =>
      obtain ⟨I1, I2, I3, I4, I5, I6, I7, I8, I9⟩ := ih visited labeled cl lab' cl' v' heq
        (fun x hx => hin x (List.mem_cons_of_mem c hx)) hbr hvok hce hle honto
      refine ⟨I1, I2, I3, I4, I5, I6, I7, I8, ?_⟩
      intro x hx hxfg
      rcases List.mem_cons.mp hx with rfl | hx
      · have hxv : x ∈ visited := by
          by_cases hv : x ∈ visited
          · exact hv
          · exact absurd ⟨hxfg, hv⟩ hcond
        exact I8 x hxv
      · exact I9 x hx hxfg

/-- Global properties of `label_connected_components`: a cell is labelled
non-zero exactly when it is an in-bounds foreground cell; labels lie in
`1..num_features`; every label in that range is used; and in-bounds
foreground cells that are 8-adjacent carry equal labels. -/
theorem lcc_spec (g : ℤ → ℤ → Bool) (h w : ℕ) :
    (∀ c, (label_connected_components g h w).1 c ≠ 0 ↔
      (inBounds h w c ∧ g c.1 c.2)) ∧
    (∀ c, (label_connected_components g h w).1 c ≤ (label_connected_components g h w).2) ∧
    (∀ k, 1 ≤ k → k ≤ (label_connected_components g h w).2 →
      ∃ c, (label_connected_components g h w).1 c = k) ∧
    (∀ a b, inBounds h w a → inBounds h w b → g a.1 a.2 → g b.1 b.2 →
      adjacent8 a b → (label_connected_components g h w).1 a =
        (label_connected_components g h w).1 b) := by
  rcases hll : labelLoop g h w (rowMajor h w) [] (fun _ => 0) 0 with ⟨lab', cl', v'⟩
  have hunfold : label_connected_components g h w = (lab', cl') := by
    rw [label_connected_components, hll]
  obtain ⟨I1, I2, I3, I4, _, I6, _, _, I9⟩ := labelLoop_spec g h w (rowMajor h w) []
    (fun _ => 0) 0 lab' cl' v' hll
    (fun c hc => (rowMajor_mem h w c).mp hc)
    (by intro x; simp [List.not_mem_nil])
    (by intro x hx; cases hx)
    (by intro u hu; cases hu)
    (fun c => Nat.zero_le 0)
    (by intro k hk1 hk2; omega)
  rw [hunfold]
  dsimp only
  have hcover : ∀ c, inBounds h w c → g c.1 c.2 → c ∈ v' := by
    intro c hc hfg
    exact I9 c ((rowMajor_mem h w c).mpr hc) hfg
  refine ⟨?_, ?_, I6, ?_⟩
  · intro c
    constructor
    · intro hne
      have hcv : c ∈ v' := (I1 c).mp hne
      exact I2 c hcv
    · intro ⟨hc, hfg⟩
      exact (I1 c).mpr (hcover c hc hfg)
  · intro c
    by_cases hc : lab' c = 0
    · rw [hc]; exact Nat.zero_le _
    · exact I4 c
  · intro a b ha hb hfga hfgb hadj
    obtain ⟨d, hd, hbeq⟩ := hadj
    have hav : a ∈ v' := hcover a ha hfga
    have hfgb2 : g (a.1 + d.1) (a.2 + d.2) := by
      rw [hbeq] at hfgb
      exact hfgb
    have hcl := I3 a hav (List.not_mem_nil a) d hd (hbeq ▸ hb) hfgb2
    rw [hbeq]
    exact (hcl.2).symm

/- ## §16 Claim C2 — 8-connectivity of the flood-fill entry points -/

/-- Claim C2 counterexample: the bitmap fallback of extract_characters.py
uses only the four axis-aligned directions, so the 10×10 grid with
foreground exactly at `(0,0)` and `(1,1)` produces two singleton components
there, not one component of size 2. -/
theorem C2_counterexample :
    bitmapComponents diagGridXY 10 10 = [[(0, 0)], [(1, 1)]] ∧
    (bitmapComponents diagGridXY 10 10).length ≠ 1 := by
  decide

/-- Claim C2 (amended): `label_connected_components` uses 8-connectivity —
on every grid, 8-adjacent (in particular diagonally adjacent) in-bounds
foreground pixels receive the same label, and the 10×10 diagonal-pair grid
yields exactly one component containing both pixels — but the bitmap
fallback path flood-fills with 4-connectivity only and splits the same
diagonal pair into two components. -/
theorem C2_amended :
    (∀ (g : ℤ → ℤ → Bool) (h w : ℕ) (a b : ℤ × ℤ),
      inBounds h w a → inBounds h w b → g a.1 a.2 → g b.1 b.2 → adjacent8 a b →
      (label_connected_components g h w).1 a = (label_connected_components g h w).1 b) ∧
    (label_connected_components diagGrid 10 10).2 = 1 ∧
    (label_connected_components diagGrid 10 10).1 (0, 0) = 1 ∧
    (label_connected_components diagGrid 10 10).1 (1, 1) = 1 ∧
    bitmapComponents diagGridXY 10 10 = [[(0, 0)], [(1, 1)]] := by
  refine ⟨fun g h w a b => (lcc_spec g h w).2.2.2 a b, by decide, by decide, by decide,
    by decide⟩

/-- Claim C2 witness: the amended 8-connectivity theorem applied to the
diagonal pair `(0,0)`, `(1,1)` of the concrete 10×10 grid. -/
theorem C2_witness :
    (label_connected_components diagGrid 10 10).1 (0, 0) =
      (label_connected_components diagGrid 10 10).1 (1, 1) :=
  C2_amended.1 diagGrid 10 10 (0, 0) (1, 1) (by decide) (by decide) (by decide)
    (by decide) (by decide)

/- ## §17 Discovery order of the raster labeler -/

/-- The row-major scan list is strictly increasing in row-major order. -/
theorem rowMajor_pairwise (h w : ℕ) : (rowMajor h w).Pairwise rmLT := by
  rw [rowMajor, List.pairwise_flatMap]
  constructor
  · intro y _
    rw [List.pairwise_map]
    have := List.pairwise_lt_range w
    apply List.Pairwise.imp _ this
    intro a b hab
    exact Or.inr ⟨rfl, by omega⟩
  · have := List.pairwise_lt_range h
    apply List.Pairwise.imp _ this
    intro y1 y2 hy x hx1 y hy2
    obtain ⟨a, _, rfl⟩ := List.mem_map.mp hx1
    obtain ⟨b, _, rfl⟩ := List.mem_map.mp hy2
    exact Or.inl (by dsimp only; omega)

/-- Facts about one seed step of the outer labelling loop: the bridge is
preserved, the new label is at most `cl + 1`, the seed keeps label
`cl + 1`, previously visited cells keep their labels, and any cell carrying
the fresh label `cl + 1` is either the seed or a previously unvisited
in-bounds foreground cell. -/
theorem seed_step_facts (g : ℤ → ℤ → Bool) (h w : ℕ) (cl : ℕ) (c : ℤ × ℤ)
    (visited : List (ℤ × ℤ)) (labeled : ℤ × ℤ → ℕ)
    (v1 : List (ℤ × ℤ)) (lab1 : ℤ × ℤ → ℕ)
    (hbfs : floodBFS g h w (cl + 1) (h * w + 1) [c] (c :: visited)
      (setLabel labeled c (cl + 1)) = (v1, lab1))
    (hnv : c ∉ visited)
    (hbr : Bridge visited labeled)
    (hle : ∀ x, labeled x ≤ cl) :
    Bridge v1 lab1 ∧ (∀ x, lab1 x ≤ cl + 1) ∧
    (∀ x ∈ visited, x ∈ v1) ∧ c ∈ v1 ∧
    lab1 c = cl + 1 ∧
    (∀ x ∈ visited, lab1 x = labeled x) ∧
    (∀ x, lab1 x = cl + 1 → x = c ∨ (x ∉ visited ∧ inBounds h w x ∧ g x.1 x.2)) ∧
    (∀ x, lab1 x = labeled x ∨ lab1 x = cl + 1) := by
  obtain ⟨B1, B2, B3, B4⟩ := floodBFS_spec g h w (cl + 1) (h * w + 1) [c]
    (c :: visited) (setLabel labeled c (cl + 1)) v1 lab1 hbfs
    (by intro x hx; rw [List.mem_singleton.mp hx]; exact List.mem_cons_self c visited)
  have hbr0 : Bridge (c :: visited) (setLabel labeled c (cl + 1)) := by
    intro x
    by_cases hxc : x = c
    · subst hxc
      simp [setLabel, List.mem_cons]
    · simp only [setLabel, if_neg hxc, List.mem_cons]
      rw [hbr x]
      constructor
      · exact Or.inr
      · rintro (hx | hx)
        · exact absurd hx hxc
        · exact hx
  have hbr1 : Bridge v1 lab1 := by
    intro x
    constructor
    · intro hne
      by_cases hx : x ∈ v1
      · exact hx
      · exfalso
        rw [B4 x hx] at hne
        exact hx (B1 x ((hbr0 x).mp hne))
    · intro hx
      rcases B2 x hx with hx1 | hx2
      · rw [B3 x hx1]
        exact (hbr0 x).mpr hx1
      · rw [hx2.2.2.1]
        omega
  have hpers : ∀ x ∈ visited, lab1 x = labeled x := by
    intro x hx
    have hxc : x ≠ c := fun hxeq => hnv (hxeq ▸ hx)
    rw [B3 x (List.mem_cons_of_mem c hx)]
    simp only [setLabel, if_neg hxc]
  have hseed : lab1 c = cl + 1 := by
    rw [B3 c (List.mem_cons_self c visited)]
    simp [setLabel]
  refine ⟨hbr1, ?_, fun x hx => B1 x (List.mem_cons_of_mem c hx),
    B1 c (List.mem_cons_self c visited), hseed, hpers, ?_, ?_⟩
  · intro x
    by_cases hx : x ∈ v1
    · rcases B2 x hx with hx1 | hx2
      · rw [B3 x hx1]
        by_cases hxc : x = c
        · subst hxc; simp [setLabel]
        · simp only [setLabel, if_neg hxc]
          exact le_trans (hle x) (Nat.le_succ cl)
      · rw [hx2.2.2.1]
    · rw [B4 x hx]
      by_cases hxc : x = c
      · subst hxc; simp [setLabel]
      · simp only [setLabel, if_neg hxc]
        exact le_trans (hle x) (Nat.le_succ cl)
  · intro x hx
    have hxv1 : x ∈ v1 := (hbr1 x).mp (by omega)
    rcases B2 x hxv1 with hx1 | hx2
    · rcases List.mem_cons.mp hx1 with rfl | hx1
      · exact Or.inl rfl
      · exfalso
        have := hpers x hx1
        rw [hx] at this
        have := hle x
        omega
    · refine Or.inr ⟨?_, hx2.1, hx2.2.1⟩
      intro hmem
      exact hx2.2.2.2 (List.mem_cons_of_mem c hmem)
  · intro x
    by_cases hx : x ∈ v1
    · rcases B2 x hx with hx1 | hx2
      · rcases List.mem_cons.mp hx1 with rfl | hx1
        · exact Or.inr hseed
        · exact Or.inl (hpers x hx1)
      · exact Or.inr hx2.2.2.1
    · rw [B4 x hx]
      have hxc : x ≠ c := fun hxeq =>
        hx (hxeq ▸ B1 c (List.mem_cons_self c visited))
      exact Or.inl (by simp [setLabel, hxc])

/-- Discovery order of the outer labelling loop: the seeds (first-discovery
cells) form a sublist of the scan list, labels are issued sequentially from
`cl + 1` in seed order, each seed is the row-major least cell of its label
class, labels evolve monotonically, and non-zero labels persist. -/
theorem labelLoop_seeds (g : ℤ → ℤ → Bool) (h w : ℕ) :
    ∀ (cs visited : List (ℤ × ℤ)) (labeled : ℤ × ℤ → ℕ) (cl : ℕ)
      (lab' : ℤ × ℤ → ℕ) (cl' : ℕ) (v' : List (ℤ × ℤ)),
      labelLoop g h w cs visited labeled cl = (lab', cl', v') →
      Bridge visited labeled →
      (∀ x, labeled x ≤ cl) →
      (∀ x, inBounds h w x → g x.1 x.2 → x ∉ visited → x ∈ cs) →
      cs.Pairwise rmLT →
      ∃ seeds : List (ℤ × ℤ), seeds.Sublist cs ∧ cl' = cl + seeds.length ∧
        (∀ i (hi : i < seeds.length),
          lab' (seeds.get ⟨i, hi⟩) = cl + i + 1 ∧
          ∀ x, lab' x = cl + i + 1 → seeds.get ⟨i, hi⟩ = x ∨ rmLT (seeds.get ⟨i, hi⟩) x) ∧
        (∀ x, lab' x = labeled x ∨ cl < lab' x) ∧
        (∀ x, labeled x ≠ 0 → lab' x = labeled x) := by
  intro cs
  induction cs with
  | nil =>
    intro visited labeled cl lab' cl' v' heq hbr hle hcont hsort
    rw [labelLoop] at heq
    injection heq with h1 h2
    injection h2 with h2 h3
    subst h1; subst h2
    exact ⟨[], List.nil_sublist _, rfl, fun i hi => absurd hi (by simp),
      fun x => Or.inl rfl, fun x _ => rfl⟩
  | cons c cs ih =>
    intro visited labeled cl lab' cl' v' heq hbr hle hcont hsort
    rw [labelLoop] at heq
    split at heq
    case isTrue hcond =>
      obtain ⟨hfg, hnv⟩ := hcond
      rcases hbfs : floodBFS g h w (cl + 1) (h * w + 1) [c] (c :: visited)
        (setLabel labeled c (cl + 1)) with ⟨v1, lab1⟩
      rw [hbfs] at heq
      obtain ⟨Sbr, Sle, Smono, Scv, Sseed, Spers, Sfresh, Sdich⟩ :=
        seed_step_facts g h w cl c visited labeled v1 lab1 hbfs hnv hbr hle
      have hcont1 : ∀ x, inBounds h w x → g x.1 x.2 → x ∉ v1 → x ∈ cs := by
        intro x hin hxfg hxv
        have hxnv : x ∉ visited := fun hmem => hxv (Smono x hmem)
        rcases List.mem_cons.mp (hcont x hin hxfg hxnv) with rfl | hmem
        · exact absurd Scv hxv
        · exact hmem
      obtain ⟨seeds', hsub', hcount', hlab', hevol', hpers'⟩ :=
        ih v1 lab1 (cl + 1) lab' cl' v' heq Sbr Sle hcont1 hsort.of_cons
      have hfirst : ∀ x ∈ cs, rmLT c x := (List.pairwise_cons.mp hsort).1
      refine ⟨c :: seeds', hsub'.cons₂ c, ?_, ?_, ?_, ?_⟩
      · simp only [List.length_cons]
        omega
      · intro i hi
        match i with
        | 0 =>
          constructor
          · show lab' c = cl + 0 + 1
            have := hpers' c (by rw [Sseed]; omega)
            rw [this, Sseed]
          · intro x hx
            have hx1 : lab1 x = cl + 1 := by
              rcases hevol' x with hev | hev
              · rw [← hev]
                exact hx
              · omega
            rcases Sfresh x hx1 with rfl | ⟨hxnv, hxin, hxfg⟩
            · exact Or.inl rfl
            · rcases List.mem_cons.mp (hcont x hxin hxfg hxnv) with rfl | hmem
              · exact Or.inl rfl
              · exact Or.inr (hfirst x hmem)
        | Nat.succ j =>
          have hj : j < seeds'.length := by
            simp only [List.length_cons] at hi
            omega
          have harith : cl + (j + 1) + 1 = (cl + 1) + j + 1 := by omega
          obtain ⟨hl1, hl2⟩ := hlab' j hj
          constructor
          · show lab' ((c :: seeds').get ⟨j + 1, hi⟩) = cl + (j + 1) + 1
            rw [harith]
            exact hl1
          · intro x hx
            rw [harith] at hx
            exact hl2 x hx
      · intro x
        rcases hevol' x with hev | hev
        · rcases Sdich x with hd | hd
          · rw [hev, hd]
            exact Or.inl rfl
          · rw [hev, hd]
            exact Or.inr (by omega)
        · exact Or.inr (by omega)
      · intro x hx
        have hxv : x ∈ visited := (hbr x).mp hx
        have h1 : lab1 x = labeled x := Spers x hxv
        rw [hpers' x (by rw [h1]; exact hx), h1]
    case isFalse hcond =>
      have hcont' : ∀ x, inBounds h w x → g x.1 x.2 → x ∉ visited → x ∈ cs := by
        intro x hin hxfg hxnv
        rcases List.mem_cons.mp (hcont x hin hxfg hxnv) with rfl | hmem
        · exact absurd ⟨hxfg, hxnv⟩ hcond
        · exact hmem
      obtain ⟨seeds', hsub', hcount', hlab', hevol', hpers'⟩ :=
        ih visited labeled cl lab' cl' v' heq hbr hle hcont' hsort.of_cons
      exact ⟨seeds', List.sublist_cons_of_sublist c hsub', hcount', hlab', hevol', hpers'⟩

/-- Discovery order of `label_connected_components`: the first-discovery
cells (seeds) form a sublist of the row-major scan, there is one per label,
seed `i` carries label `i + 1`, and each seed is the row-major least cell of
its label class. -/
theorem lcc_seeds (g : ℤ → ℤ → Bool) (h w : ℕ) :
    ∃ seeds : List (ℤ × ℤ), seeds.Sublist (rowMajor h w) ∧
      seeds.length = (label_connected_components g h w).2 ∧
      ∀ i (hi : i < seeds.length),
        (label_connected_components g h w).1 (seeds.get ⟨i, hi⟩) = i + 1 ∧
        ∀ x, (label_connected_components g h w).1 x = i + 1 →
          seeds.get ⟨i, hi⟩ = x ∨ rmLT (seeds.get ⟨i, hi⟩) x := by
  rcases hll : labelLoop g h w (rowMajor h w) [] (fun _ => 0) 0 with ⟨lab', cl', v'⟩
  have hunfold : label_connected_components g h w = (lab', cl') := by
    rw [label_connected_components, hll]
  obtain ⟨seeds, hsub, hcount, hlab, _, _⟩ := labelLoop_seeds g h w (rowMajor h w) []
    (fun _ => 0) 0 lab' cl' v' hll
    (by intro x; simp [List.not_mem_nil])
    (fun x => Nat.zero_le 0)
    (fun x hin hfg _ => (rowMajor_mem h w x).mpr hin)
    (rowMajor_pairwise h w)
  rw [hunfold]
  refine ⟨seeds, hsub, by dsimp only; omega, ?_⟩
  intro i hi
  obtain ⟨hl1, hl2⟩ := hlab i hi
  constructor
  · show lab' (seeds.get ⟨i, hi⟩) = i + 1
    omega
  · intro x hx
    exact hl2 x (by dsimp only at hx; omega)

/- ## §18 Claim C7 — the label map contract -/

/-- Claim C7: the label map is 0 exactly on background (and on out-of-grid
cells, reflecting the same-shape requirement), every foreground cell
carries a label in `1..num_features`, labels are issued sequentially (every
label in range is used), and label `k` belongs to the `k`-th component in
row-major order of first discovery: the seeds form a sublist of the
row-major scan, seed `i` carries label `i + 1` and is the row-major least
cell of its label class. -/
theorem C7_label_map (g : ℤ → ℤ → Bool) (h w : ℕ) :
    (∀ c, ¬ inBounds h w c → (label_connected_components g h w).1 c = 0) ∧
    (∀ c, inBounds h w c →
      ((label_connected_components g h w).1 c = 0 ↔ ¬ g c.1 c.2)) ∧
    (∀ c, inBounds h w c → g c.1 c.2 →
      1 ≤ (label_connected_components g h w).1 c ∧
      (label_connected_components g h w).1 c ≤ (label_connected_components g h w).2) ∧
    (∀ k, 1 ≤ k → k ≤ (label_connected_components g h w).2 →
      ∃ c, (label_connected_components g h w).1 c = k) ∧
    (∃ seeds : List (ℤ × ℤ), seeds.Sublist (rowMajor h w) ∧
      seeds.length = (label_connected_components g h w).2 ∧
      ∀ i (hi : i < seeds.length),
        (label_connected_components g h w).1 (seeds.get ⟨i, hi⟩) = i + 1 ∧
        ∀ x, (label_connected_components g h w).1 x = i + 1 →
          seeds.get ⟨i, hi⟩ = x ∨ rmLT (seeds.get ⟨i, hi⟩) x) := by
  obtain ⟨L1, L2, L3, _⟩ := lcc_spec g h w
  refine ⟨?_, ?_, ?_, L3, ?_⟩
  · intro c hc
    by_contra hne
    exact hc ((L1 c).mp hne).1
  · intro c hc
    constructor
    · intro h0 hfg
      have := (L1 c).mpr ⟨hc, hfg⟩
      exact this h0
    · intro hfg
      by_contra hne
      exact hfg ((L1 c).mp hne).2
  · intro c hc hfg
    have hne := (L1 c).mpr ⟨hc, hfg⟩
    exact ⟨by omega, L2 c⟩
  · exact lcc_seeds g h w

/-- Claim C7 witness: the label-map contract applied to the diagonal-pair
grid — the out-of-grid cell `(10,0)` is unlabelled and the foreground cell
`(0,0)` has a label in range. -/
theorem C7_witness :
    (label_connected_components diagGrid 10 10).1 (10, 0) = 0 ∧
    1 ≤ (label_connected_components diagGrid 10 10).1 (0, 0) :=
  ⟨(C7_label_map diagGrid 10 10).1 (10, 0) (by decide),
   ((C7_label_map diagGrid 10 10).2.2.1 (0, 0) (by decide) (by decide)).1⟩

/- ## §19 Invariants of the bucket clusterer -/

/-- Filters over equi-membered visited sets coincide. -/
theorem filter_notMem_congr (L v1 v2 : List (ℤ × ℤ)) (h : ∀ x, x ∈ v1 ↔ x ∈ v2) :
    L.filter (fun c => c ∉ v1) = L.filter (fun c => c ∉ v2) :=
  List.filter_congr (fun x _ => decide_eq_decide.mpr (not_congr (h x)))

/-- Extending the visited set by a block of fresh in-list cells shrinks the
unvisited filter by the block size. -/
theorem filter_notMem_append_length (L : List (ℤ × ℤ)) :
    ∀ (new visited : List (ℤ × ℤ)), new.Nodup →
      (∀ x ∈ new, x ∈ L ∧ x ∉ visited) →
      (L.filter fun c => c ∉ new ++ visited).length + new.length ≤
        (L.filter fun c => c ∉ visited).length := by
  intro new
  induction new with
  | nil =>
    intro visited _ _
    simp
  | cons n t ih =>
    intro visited hnd hprops
    have hn := hprops n (List.mem_cons_self n t)
    have hnt : n ∉ t := (List.nodup_cons.mp hnd).1
    have h1 := filter_notMem_cons_length L (t ++ visited) n hn.1
      (by
        intro hmem
        rcases List.mem_append.mp hmem with hmem | hmem
        · exact hnt hmem
        · exact hn.2 hmem)
    have h2 := ih visited (List.nodup_cons.mp hnd).2
      (fun x hx => hprops x (List.mem_cons_of_mem n hx))
    have hcongr : L.filter (fun c => c ∉ (n :: t) ++ visited) =
        L.filter (fun c => c ∉ n :: (t ++ visited)) := by
      apply filter_notMem_congr
      intro x
      simp [List.mem_cons, List.mem_append]
    rw [hcongr]
    simp only [List.length_cons]
    omega

/-- Behaviour of one bucket neighbour scan: the queue grows by a block of
fresh unvisited bucket keys, which are exactly the cells pushed onto the
visited set. -/
theorem enqueueNbrs_spec (g : List ((ℤ × ℤ) × List ℕ)) (c : ℤ × ℤ) :
    ∀ (ds added visited q' v' : List (ℤ × ℤ)),
      enqueueNbrs g c ds added visited = (q', v') →
      ∃ new, q' = added ++ new ∧ v' = new.reverse ++ visited ∧ new.Nodup ∧
        ∀ x ∈ new, x ∈ gridKeys g ∧ x ∉ visited := by
  intro ds
  induction ds with
  | nil =>
    intro added visited q' v' heq
    rw [enqueueNbrs] at heq
    injection heq with h1 h2
    subst h1; subst h2
    exact ⟨[], by simp, by simp, List.nodup_nil, by simp⟩
  | cons d ds ih =>
    intro added visited q' v' heq
    rw [enqueueNbrs] at heq
    split at heq
    case isTrue hcond =>
      obtain ⟨new', hq, hv, hnd, hprops⟩ := ih (added ++ [(c.1 + d.1, c.2 + d.2)])
        ((c.1 + d.1, c.2 + d.2) :: visited) q' v' heq
      refine ⟨(c.1 + d.1, c.2 + d.2) :: new', ?_, ?_, ?_, ?_⟩
      · rw [hq, List.append_assoc]
        rfl
      · rw [hv]
        simp [List.append_assoc]
      · refine List.nodup_cons.mpr ⟨?_, hnd⟩
        intro hmem
        exact (hprops _ hmem).2 (List.mem_cons_self _ _)
      · intro x hx
        rcases List.mem_cons.mp hx with rfl | hx
        · exact ⟨hcond.1, hcond.2⟩
        · have := hprops x hx
          exact ⟨this.1, fun hmem => this.2 (List.mem_cons_of_mem _ hmem)⟩
    case isFalse hcond =>
      exact ih added visited q' v' heq

/-- The bucket BFS only extends its accumulator. -/
theorem bucketBFS_prefix (g : List ((ℤ × ℤ) × List ℕ)) :
    ∀ (fuel : ℕ) (queue visited acc : List _) (acc' : List ℕ) (v' : List (ℤ × ℤ)),
      bucketBFS g fuel queue visited acc = (acc', v') → ∃ t, acc' = acc ++ t := by
  intro fuel
  induction fuel with
  | zero =>
    intro queue visited acc acc' v' heq
    rw [bucketBFS] at heq
    injection heq with h1 h2
    subst h1
    exact ⟨[], by simp⟩
  | succ fuel ih =>
    intro queue visited acc acc' v' heq
    match queue with
    | [] =>
      rw [bucketBFS] at heq
      injection heq with h1 h2
      subst h1
      exact ⟨[], by simp⟩
    | c :: rest =>
      rw [bucketBFS] at heq
      rcases hen : enqueueNbrs g c nbrDirs [] visited with ⟨q1, v1⟩
      rw [hen] at heq
      obtain ⟨t, ht⟩ := ih (rest ++ q1) v1 (acc ++ gridGet g c) acc' v' heq
      exact ⟨gridGet g c ++ t, by rw [ht, List.append_assoc]⟩

/-- Accounting for the bucket BFS: with sufficient fuel it drains its
queue; the visited set grows by a block `new` of fresh bucket keys and the
accumulator collects exactly the primitive indices of the queued and newly
visited buckets. -/
theorem bucketBFS_account (g : List ((ℤ × ℤ) × List ℕ)) :
    ∀ (fuel : ℕ) (queue visited : List (ℤ × ℤ)) (acc acc' : List ℕ) (v' : List (ℤ × ℤ)),
      bucketBFS g fuel queue visited acc = (acc', v') →
      (∀ x ∈ queue, x ∈ visited) →
      queue.Nodup →
      (∀ x ∈ queue, x ∈ gridKeys g) →
      ((gridKeys g).filter fun c => c ∉ visited).length + queue.length ≤ fuel →
      ∃ new, v'.Perm (new ++ visited) ∧
        acc'.Perm (acc ++ (queue ++ new).flatMap (gridGet g)) ∧
        new.Nodup ∧ (∀ x ∈ new, x ∈ gridKeys g ∧ x ∉ visited) := by
  intro fuel
  induction fuel with
  | zero =>
    intro queue visited acc acc' v' heq hq hnd hk hfuel
    have hqe : queue = [] := by
      cases queue with
      | nil => rfl
      | cons a t => simp at hfuel
    subst hqe
    rw [bucketBFS] at heq
    injection heq with h1 h2
    subst h1; subst h2
    exact ⟨[], by simp, by simp, List.nodup_nil, by simp⟩
  | succ fuel ih =>
    intro queue visited acc acc' v' heq hq hnd hk hfuel
    match queue with
    | [] =>
      rw [bucketBFS] at heq
      injection heq with h1 h2
      subst h1; subst h2
      exact ⟨[], by simp, by simp, List.nodup_nil, by simp⟩
    | c :: rest =>
      rw [bucketBFS] at heq
      rcases hen : enqueueNbrs g c nbrDirs [] visited with ⟨q1, v1⟩
      rw [hen] at heq
      obtain ⟨new1, hq1, hv1, hnd1, hprops1⟩ := enqueueNbrs_spec g c nbrDirs [] visited
        q1 v1 hen
      rw [List.nil_append] at hq1
      rw [hq1] at heq
      have hrest_v1 : ∀ x ∈ rest, x ∈ v1 := by
        intro x hx
        rw [hv1]
        exact List.mem_append_right _ (hq x (List.mem_cons_of_mem c hx))
      have hnew1_v1 : ∀ x ∈ new1, x ∈ v1 := by
        intro x hx
        rw [hv1]
        exact List.mem_append_left _ (List.mem_reverse.mpr hx)
      have hq' : ∀ x ∈ rest ++ new1, x ∈ v1 := by
        intro x hx
        rcases List.mem_append.mp hx with hx | hx
        · exact hrest_v1 x hx
        · exact hnew1_v1 x hx
      have hnd' : (rest ++ new1).Nodup := by
        refine List.Nodup.append (List.nodup_cons.mp hnd).2 hnd1 ?_
        intro x hx1 hx2
        exact (hprops1 x hx2).2 (hq x (List.mem_cons_of_mem c hx1))
      have hk' : ∀ x ∈ rest ++ new1, x ∈ gridKeys g := by
        intro x hx
        rcases List.mem_append.mp hx with hx | hx
        · exact hk x (List.mem_cons_of_mem c hx)
        · exact (hprops1 x hx).1
      have hfuel' : ((gridKeys g).filter fun x => x ∉ v1).length +
          (rest ++ new1).length ≤ fuel := by
        have hcongr : (gridKeys g).filter (fun x => x ∉ v1) =
            (gridKeys g).filter (fun x => x ∉ new1 ++ visited) := by
          apply filter_notMem_congr
          intro x
          rw [hv1]
          simp [List.mem_append, List.mem_reverse]
        have hbulk := filter_notMem_append_length (gridKeys g) new1 visited hnd1 hprops1
        rw [hcongr]
        simp only [List.length_append, List.length_cons] at hfuel ⊢
        omega
      obtain ⟨new', hperm', hacc', hnd'', hprops'⟩ := ih (rest ++ new1) v1
        (acc ++ gridGet g c) acc' v' heq hq' hnd' hk' hfuel'
      refine ⟨new1 ++ new', ?_, ?_, ?_, ?_⟩
      · have p1 : v'.Perm ((new' ++ new1.reverse) ++ visited) := by
          rw [List.append_assoc, ← hv1]
          exact hperm'
        have p2 : (new' ++ new1.reverse).Perm (new1 ++ new') := by
          refine List.Perm.trans List.perm_append_comm ?_
          exact List.Perm.append_right new' (List.reverse_perm new1)
        exact p1.trans (List.Perm.append_right visited p2)
      · have p3 : (acc ++ gridGet g c) ++ ((rest ++ new1) ++ new').flatMap (gridGet g) =
            acc ++ ((c :: rest) ++ (new1 ++ new')).flatMap (gridGet g) := by
          simp [List.flatMap_append, List.append_assoc, List.flatMap_cons]
        exact hacc'.trans (p3 ▸ List.Perm.refl _)
      · refine List.Nodup.append hnd1 hnd'' ?_
        intro x hx1 hx2
        have := (hprops' x hx2).2
        exact this (hnew1_v1 x hx1)
      · intro x hx
        rcases List.mem_append.mp hx with hx | hx
        · exact hprops1 x hx
        · refine ⟨(hprops' x hx).1, ?_⟩
          intro hmem
          exact (hprops' x hx).2 (by rw [hv1]; exact List.mem_append_right _ hmem)

/-- Accounting for the outer clustering loop: the visited set grows by a
block of fresh bucket keys and the emitted components together hold exactly
the primitive indices of those buckets; every scanned cell ends up
visited. -/
theorem clusterLoop_account (g : List ((ℤ × ℤ) × List ℕ)) :
    ∀ (cells visited : List (ℤ × ℤ)) (comps : List (List ℕ)) (v'' : List (ℤ × ℤ)),
      clusterLoop g cells visited = (comps, v'') →
      (∀ x ∈ cells, x ∈ gridKeys g) →
      ∃ used, v''.Perm (used ++ visited) ∧ used.Nodup ∧
        (∀ x ∈ used, x ∈ gridKeys g ∧ x ∉ visited) ∧
        comps.flatten.Perm (used.flatMap (gridGet g)) ∧
        (∀ x ∈ cells, x ∈ v'') ∧ (∀ x ∈ visited, x ∈ v'') := by
  intro cells
  induction cells with
  | nil =>
    intro visited comps v'' heq hcells
    rw [clusterLoop] at heq
    injection heq with h1 h2
    subst h1; subst h2
    exact ⟨[], by simp, List.nodup_nil, by simp, by simp, by simp, fun x hx => hx⟩
  | cons c cells ih =>
    intro visited comps v'' heq hcells
    rw [clusterLoop] at heq
    split at heq
    case isTrue hcond =>
      obtain ⟨used, hperm, hnd, hprops, hflat, hcover, hmono⟩ :=
        ih visited comps v'' heq (fun x hx => hcells x (List.mem_cons_of_mem c hx))
      refine ⟨used, hperm, hnd, hprops, hflat, ?_, hmono⟩
      intro x hx
      rcases List.mem_cons.mp hx with rfl | hx
      · exact hmono x hcond
      · exact hcover x hx
    case isFalse hcond =>
      rcases hbfs : bucketBFS g (g.length + 1) [c] (c :: visited) [] with ⟨comp, v1⟩
      rw [hbfs] at heq
      dsimp only at heq
      rcases hcl : clusterLoop g cells v1 with ⟨comps', v2⟩
      rw [hcl] at heq
      injection heq with h1 h2
      subst h1; subst h2
      have hkeylen : (gridKeys g).length = g.length := by simp [gridKeys]
      obtain ⟨new, hpermv1, hacc, hndnew, hnewprops⟩ := bucketBFS_account g
        (g.length + 1) [c] (c :: visited) [] comp v1 hbfs
        (by intro x hx; rw [List.mem_singleton.mp hx]; exact List.mem_cons_self c visited)
        (List.nodup_singleton c)
        (by intro x hx; rw [List.mem_singleton.mp hx]; exact hcells c (List.mem_cons_self c cells))
        (by
          have := List.length_filter_le (fun x => decide (x ∉ c :: visited)) (gridKeys g)
          simp only [List.length_singleton]
          omega)
      obtain ⟨used', hperm', hnd', hprops', hflat', hcover', hmono'⟩ :=
        ih v1 comps' v2 hcl (fun x hx => hcells x (List.mem_cons_of_mem c hx))
      have hmemv1 : ∀ x, x ∈ v1 ↔ x ∈ new ++ (c :: visited) :=
        fun x => hpermv1.mem_iff
      refine ⟨c :: (new ++ used'), ?_, ?_, ?_, ?_, ?_, ?_⟩
      · have p1 : v2.Perm (used' ++ (new ++ (c :: visited))) :=
          hperm'.trans (List.Perm.append_left used' hpermv1)
        have p2 : (used' ++ (new ++ (c :: visited))) =
            ((used' ++ new) ++ [c]) ++ visited := by
          simp [List.append_assoc]
        rw [p2] at p1
        refine p1.trans ?_
        refine List.Perm.append_right visited ?_
        have p3 : ((used' ++ new) ++ [c]).Perm ([c] ++ (used' ++ new)) :=
          List.perm_append_comm
        refine p3.trans ?_
        have p4 : (used' ++ new).Perm (new ++ used') := List.perm_append_comm
        exact List.Perm.append_left [c] p4
      · refine List.nodup_cons.mpr ⟨?_, ?_⟩
        · intro hmem
          rcases List.mem_append.mp hmem with hmem | hmem
          · exact (hnewprops c hmem).2 (List.mem_cons_self c visited)
          · exact (hprops' c hmem).2 ((hmemv1 c).mpr
              (List.mem_append_right new (List.mem_cons_self c visited)))
        · refine List.Nodup.append hndnew hnd' ?_
          intro x hx1 hx2
          exact (hprops' x hx2).2 ((hmemv1 x).mpr (List.mem_append_left _ hx1))
      · intro x hx
        rcases List.mem_cons.mp hx with rfl | hx
        · exact ⟨hcells x (List.mem_cons_self x cells), hcond⟩
        · rcases List.mem_append.mp hx with hx | hx
          · refine ⟨(hnewprops x hx).1, ?_⟩
            intro hmem
            exact (hnewprops x hx).2 (List.mem_cons_of_mem c hmem)
          · refine ⟨(hprops' x hx).1, ?_⟩
            intro hmem
            exact (hprops' x hx).2 ((hmemv1 x).mpr
              (List.mem_append_right new (List.mem_cons_of_mem c hmem)))
      · show (comp ++ comps'.flatten).Perm _
        have hcompacc : comp.Perm (gridGet g c ++ new.flatMap (gridGet g)) := by
          have : ([] : List ℕ) ++ ([c] ++ new).flatMap (gridGet g) =
              gridGet g c ++ new.flatMap (gridGet g) := by
            simp [List.flatMap_append]
          exact hacc.trans (this ▸ List.Perm.refl _)
        have htarget : (c :: (new ++ used')).flatMap (gridGet g) =
            gridGet g c ++ (new.flatMap (gridGet g) ++ used'.flatMap (gridGet g)) := by
          simp [List.flatMap_cons, List.flatMap_append]
        rw [htarget]
        have := List.Perm.append hcompacc hflat'
        refine this.trans ?_
        simp [List.append_assoc]
      · intro x hx
        rcases List.mem_cons.mp hx with rfl | hx
        · exact hmono' x ((hmemv1 x).mpr
            (List.mem_append_right new (List.mem_cons_self x visited)))
        · exact hcover' x hx
      · intro x hx
        exact hmono' x ((hmemv1 x).mpr
          (List.mem_append_right new (List.mem_cons_of_mem c hx)))

/-- Discovery order of the clustering loop: the seeds form a sublist of the
scanned cells (bucket keys in insertion order), one per emitted component,
and each component begins with the primitive indices of its seed bucket. -/
theorem clusterLoop_seeds (g : List ((ℤ × ℤ) × List ℕ)) :
    ∀ (cells visited : List (ℤ × ℤ)) (comps : List (List ℕ)) (v'' : List (ℤ × ℤ)),
      clusterLoop g cells visited = (comps, v'') →
      ∃ seeds : List (ℤ × ℤ), seeds.Sublist cells ∧ seeds.length = comps.length ∧
        ∀ i (hi : i < seeds.length) (hi2 : i < comps.length),
          ∃ t, comps.get ⟨i, hi2⟩ = gridGet g (seeds.get ⟨i, hi⟩) ++ t := by
  intro cells
  induction cells with
  | nil =>
    intro visited comps v'' heq
    rw [clusterLoop] at heq
    injection heq with h1 h2
    subst h1
    exact ⟨[], List.nil_sublist _, rfl, fun i hi _ => absurd hi (by simp)⟩
  | cons c cells ih =>
    intro visited comps v'' heq
    rw [clusterLoop] at heq
    split at heq
    case isTrue hcond =>
      obtain ⟨seeds, hsub, hlen, hget⟩ := ih visited comps v'' heq
      exact ⟨seeds, List.sublist_cons_of_sublist c hsub, hlen, hget⟩
    case isFalse hcond =>
      rcases hbfs : bucketBFS g (g.length + 1) [c] (c :: visited) [] with ⟨comp, v1⟩
      rw [hbfs] at heq
      dsimp only at heq
      rcases hcl : clusterLoop g cells v1 with ⟨comps', v2⟩
      rw [hcl] at heq
      injection heq with h1 h2
      subst h1
      obtain ⟨seeds', hsub', hlen', hget'⟩ := ih v1 comps' v2 hcl
      have hpre : ∃ t, comp = gridGet g c ++ t := by
        rw [bucketBFS] at hbfs
        rcases hen : enqueueNbrs g c nbrDirs [] (c :: visited) with ⟨q1, vv⟩
        rw [hen] at hbfs
        obtain ⟨t, ht⟩ := bucketBFS_prefix g g.length ([] ++ q1) vv
          ([] ++ gridGet g c) comp v1 hbfs
        refine ⟨t, ?_⟩
        rw [ht]
        simp
      refine ⟨c :: seeds', hsub'.cons₂ c, by simp [hlen'], ?_⟩
      intro i hi hi2
      match i with
      | 0 => exact hpre
      | Nat.succ j =>
        have hj : j < seeds'.length := by
          simp only [List.length_cons] at hi
          omega
        have hj2 : j < comps'.length := by omega
        exact hget' j hj hj2

/- ## §20 Properties of the bucket grid construction -/

/-- Appending an index either reuses an existing key or appends a new key. -/
theorem addToGrid_keys (g : List ((ℤ × ℤ) × List ℕ)) (k : ℤ × ℤ) (i : ℕ) :
    gridKeys (addToGrid g k i) =
      if k ∈ gridKeys g then gridKeys g else gridKeys g ++ [k] := by
  induction g with
  | nil => simp [addToGrid, gridKeys]
  | cons e rest ih =>
    obtain ⟨k', l⟩ := e
    by_cases hk : k' = k
    · subst hk
      simp [addToGrid, gridKeys, List.mem_cons]
    · simp only [addToGrid, if_neg hk, gridKeys, List.map_cons] at ih ⊢
      rw [ih]
      by_cases hmem : k ∈ List.map Prod.fst rest
      · rw [if_pos hmem, if_pos (List.mem_cons_of_mem k' hmem)]
      · rw [if_neg hmem, if_neg ?_]
        · rfl
        · intro hmem2
          rcases List.mem_cons.mp hmem2 with hkk | hkk
          · exact hk hkk.symm
          · exact hmem hkk

/-- The bucket keys stay duplicate-free. -/
theorem addToGrid_keys_nodup (g : List ((ℤ × ℤ) × List ℕ)) (k : ℤ × ℤ) (i : ℕ)
    (h : (gridKeys g).Nodup) : (gridKeys (addToGrid g k i)).Nodup := by
  rw [addToGrid_keys]
  split
  · exact h
  · refine List.Nodup.append h (List.nodup_singleton k) ?_
    intro x hx1 hx2
    rw [List.mem_singleton.mp hx2] at hx1
    exact absurd hx1 (by assumption)

/-- The keys of the built bucket grid are duplicate-free. -/
theorem buildGrid_keys_nodup (pixels : List Prim) : (gridKeys (buildGrid pixels)).Nodup := by
  rw [buildGrid]
  generalize pixels.enum = l
  have : ∀ (l : List (ℕ × Prim)) (g0 : List ((ℤ × ℤ) × List ℕ)), (gridKeys g0).Nodup →
      (gridKeys (l.foldl (fun g p => addToGrid g (bucketKey p.2) p.1) g0)).Nodup := by
    intro l
    induction l with
    | nil => intro g0 h0; exact h0
    | cons p t ih =>
      intro g0 h0
      exact ih (addToGrid g0 (bucketKey p.2) p.1) (addToGrid_keys_nodup g0 _ _ h0)
  exact this l [] (by simp [gridKeys])

/-- Appending an index adds exactly that index to the grid's values. -/
theorem addToGrid_values (g : List ((ℤ × ℤ) × List ℕ)) (k : ℤ × ℤ) (i : ℕ) :
    ((addToGrid g k i).flatMap Prod.snd).Perm (g.flatMap Prod.snd ++ [i]) := by
  induction g with
  | nil => simp [addToGrid]
  | cons e rest ih =>
    obtain ⟨k', l⟩ := e
    by_cases hk : k' = k
    · subst hk
      have hstep : addToGrid ((k', l) :: rest) k' i = (k', l ++ [i]) :: rest := by
        simp [addToGrid]
      rw [hstep]
      simp only [List.flatMap_cons]
      rw [List.append_assoc l [i], List.append_assoc l (rest.flatMap Prod.snd)]
      exact List.Perm.append_left l List.perm_append_comm
    · simp only [addToGrid, if_neg hk, List.flatMap_cons]
      refine (List.Perm.append_left l ih).trans ?_
      rw [← List.append_assoc]

/-- The values of the built bucket grid are a permutation of all primitive
indices `0 .. n-1`. -/
theorem buildGrid_values (pixels : List Prim) :
    ((buildGrid pixels).flatMap Prod.snd).Perm (List.range pixels.length) := by
  rw [buildGrid]
  have hgen : ∀ (l : List (ℕ × Prim)) (g0 : List ((ℤ × ℤ) × List ℕ)),
      ((l.foldl (fun g p => addToGrid g (bucketKey p.2) p.1) g0).flatMap Prod.snd).Perm
        (g0.flatMap Prod.snd ++ l.map Prod.fst) := by
    intro l
    induction l with
    | nil => intro g0; simp
    | cons p t ih =>
      intro g0
      simp only [List.foldl_cons, List.map_cons]
      refine (ih (addToGrid g0 (bucketKey p.2) p.1)).trans ?_
      have h2 := List.Perm.append_right (t.map Prod.fst)
        (addToGrid_values g0 (bucketKey p.2) p.1)
      refine h2.trans ?_
      rw [List.append_assoc]
      exact List.Perm.refl _
  have := hgen pixels.enum []
  rw [List.enum_map_fst] at this
  simpa using this

/-- Reading all keys of a duplicate-free grid returns all its values. -/
theorem gridKeys_flatMap (g : List ((ℤ × ℤ) × List ℕ)) (h : (gridKeys g).Nodup) :
    (gridKeys g).flatMap (gridGet g) = g.flatMap Prod.snd := by
  induction g with
  | nil => simp [gridKeys]
  | cons e rest ih =>
    obtain ⟨k, l⟩ := e
    simp only [gridKeys, List.map_cons] at h ⊢
    have hknr : k ∉ List.map Prod.fst rest := (List.nodup_cons.mp h).1
    simp only [List.flatMap_cons]
    have h1 : gridGet ((k, l) :: rest) k = l := by
      simp [gridGet]
    have h2 : (List.map Prod.fst rest).flatMap (gridGet ((k, l) :: rest)) =
        (List.map Prod.fst rest).flatMap (gridGet rest) := by
      have hdef : (List.map Prod.fst rest).flatMap (gridGet ((k, l) :: rest)) =
          ((List.map Prod.fst rest).map (gridGet ((k, l) :: rest))).flatten := by
        rw [List.flatMap_def]
      have hdef2 : (List.map Prod.fst rest).flatMap (gridGet rest) =
          ((List.map Prod.fst rest).map (gridGet rest)).flatten := by
        rw [List.flatMap_def]
      rw [hdef, hdef2]
      congr 1
      apply List.map_congr_left
      intro x hx
      have hxk : k ≠ x := fun hkx => hknr (hkx ▸ hx)
      simp [gridGet, hxk]
    rw [h1, h2]
    have ih2 := ih (List.nodup_cons.mp h).2
    rw [gridKeys] at ih2
    rw [ih2]

/- ## §21 Claim C3 — the partition property -/

/-- The components built by the bucket clusterer over all insertion-ordered
grid keys partition the primitive indices: their concatenation is a
permutation of `0 .. n-1`. -/
theorem componentsOf_partition (p : List Prim) :
    (componentsOf p).flatten.Perm (List.range p.length) := by
  rcases hcl : clusterLoop (buildGrid p) (gridKeys (buildGrid p)) [] with ⟨comps, v''⟩
  have hco : componentsOf p = comps := by rw [componentsOf, hcl]
  obtain ⟨used, hperm, hnd, hprops, hflat, hcover, _⟩ :=
    clusterLoop_account (buildGrid p) (gridKeys (buildGrid p)) [] comps v'' hcl
      (fun x hx => hx)
  have hsub1 : used ⊆ gridKeys (buildGrid p) := fun x hx => (hprops x hx).1
  have hsub2 : gridKeys (buildGrid p) ⊆ used := by
    intro x hx
    have hxv : x ∈ v'' := hcover x hx
    have := hperm.mem_iff.mp hxv
    simpa using this
  have hkeysnd := buildGrid_keys_nodup p
  have huperm : used.Perm (gridKeys (buildGrid p)) :=
    List.Subperm.antisymm (List.subperm_of_subset hnd hsub1)
      (List.subperm_of_subset hkeysnd hsub2)
  rw [hco]
  refine hflat.trans ?_
  refine (List.Perm.flatMap_right (gridGet (buildGrid p)) huperm).trans ?_
  rw [gridKeys_flatMap (buildGrid p) hkeysnd]
  exact buildGrid_values p

/-- Splitting the component list by the `> 5` noise filter loses nothing:
kept characters plus discarded regions permute the component list. -/
theorem charactersOf_append_discardedOf (p : List Prim) :
    (charactersOf p ++ discardedOf p).Perm (componentsOf p) := by
  rw [charactersOf, discardedOf]
  have hcongr : (componentsOf p).filter (fun c => c.length ≤ 5) =
      (componentsOf p).filter (fun c => !(decide (5 < c.length))) := by
    apply List.filter_congr
    intro c _
    rw [← decide_not]
    exact decide_eq_decide.mpr (Nat.not_lt).symm
  rw [hcongr]
  exact List.filter_append_perm (fun c => 5 < c.length) (componentsOf p)

/-- Claim C3: for every input, the surviving regions together with the
discarded-noise set are pairwise disjoint and cover the full input exactly
once — in the vector path the emitted regions plus the discarded regions
concatenate to a permutation of all primitive indices and are pairwise
disjoint; in the raster path an in-bounds cell carries a nonzero label
if and only if it is a foreground pixel (so the labeled components plus
the zero-labeled background partition the grid). -/
theorem C3_partition :
    (∀ p : List Prim,
      (extractRegions p ++ discardedRegions p).flatten.Perm (List.range p.length) ∧
      (extractRegions p ++ discardedRegions p).Pairwise List.Disjoint) ∧
    (∀ (g : ℤ → ℤ → Bool) (h w : ℕ) (c : ℤ × ℤ), inBounds h w c →
      ((label_connected_components g h w).1 c ≠ 0 ↔ g c.1 c.2 = true)) := by
  constructor
  · intro p
    by_cases hp : p = []
    · subst hp
      simp [extractRegions, discardedRegions]
    · by_cases hlen : p.length < 10
      · rw [extractRegions, discardedRegions, if_neg hp, if_neg hp, if_pos hlen, if_pos hlen]
        exact ⟨by simp, by simp⟩
      · rw [extractRegions, discardedRegions, if_neg hp, if_neg hp, if_neg hlen, if_neg hlen]
        have hperm : (charactersOf p ++ discardedOf p).flatten.Perm (List.range p.length) :=
          ((charactersOf_append_discardedOf p).flatten).trans (componentsOf_partition p)
        refine ⟨hperm, ?_⟩
        have hnd : (charactersOf p ++ discardedOf p).flatten.Nodup :=
          (hperm.nodup_iff).mpr (List.nodup_range p.length)
        exact (List.nodup_flatten.mp hnd).2
  · intro g h w c hc
    have h1 := (lcc_spec g h w).1 c
    constructor
    · intro hne
      exact (h1.mp hne).2
    · intro hfg
      exact h1.mpr ⟨hc, hfg⟩

/-- Claim C3 witness: the raster half of `C3_partition` instantiated at the
concrete diagonal grid — cell `(0, 0)` is foreground, so its label is
nonzero. -/
theorem C3_witness :
    (label_connected_components diagGrid 10 10).1 (0, 0) ≠ 0 ↔
      diagGrid (0, 0).1 (0, 0).2 = true :=
  C3_partition.2 diagGrid 10 10 (0, 0) (by decide)

/- ## §22 Claim C8 — determinism of both strategies -/

/-- Claim C8: both segmentation strategies are deterministic. Two runs of the
vector extractor on the same primitive list produce the same regions and the
same discarded set; the region discovery order is fixed, one seed bucket per
region taken in grid-map insertion order, each region led by its seed
bucket's primitives. Two runs of the raster labeler on pointwise-equal
occupancy grids produce the same label map and count; component discovery
order is fixed by the row-major scan, with labels issued sequentially. -/
theorem C8_determinism :
    (∀ p q : List Prim, p = q →
      extractRegions p = extractRegions q ∧ discardedRegions p = discardedRegions q) ∧
    (∀ p : List Prim, ∃ seeds : List (ℤ × ℤ),
      seeds.Sublist (gridKeys (buildGrid p)) ∧
      seeds.length = (componentsOf p).length ∧
      ∀ i (hi : i < seeds.length) (hi2 : i < (componentsOf p).length),
        ∃ t, (componentsOf p).get ⟨i, hi2⟩ =
          gridGet (buildGrid p) (seeds.get ⟨i, hi⟩) ++ t) ∧
    (∀ (g : ℤ → ℤ → Bool) (h w : ℕ), ∃ seeds : List (ℤ × ℤ),
      seeds.Sublist (rowMajor h w) ∧
      seeds.length = (label_connected_components g h w).2 ∧
      ∀ i (hi : i < seeds.length),
        (label_connected_components g h w).1 (seeds.get ⟨i, hi⟩) = i + 1) ∧
    (∀ (g₁ g₂ : ℤ → ℤ → Bool) (h w : ℕ), (∀ y x, g₁ y x = g₂ y x) →
      label_connected_components g₁ h w = label_connected_components g₂ h w) := by
  refine ⟨?_, ?_, ?_, ?_⟩
  · intro p q hpq
    subst hpq
    exact ⟨rfl, rfl⟩
  · intro p
    rcases hcl : clusterLoop (buildGrid p) (gridKeys (buildGrid p)) [] with ⟨comps, v''⟩
    have hco : componentsOf p = comps := by rw [componentsOf, hcl]
    obtain ⟨seeds, hsub, hlen, hget⟩ :=
      clusterLoop_seeds (buildGrid p) (gridKeys (buildGrid p)) [] comps v'' hcl
    rw [hco]
    exact ⟨seeds, hsub, hlen, hget⟩
  · intro g h w
    obtain ⟨seeds, hsub, hlen, hprop⟩ := lcc_seeds g h w
    exact ⟨seeds, hsub, hlen, fun i hi => (hprop i hi).1⟩
  · intro g₁ g₂ h w hg
    have hgeq : g₁ = g₂ := funext fun y => funext fun x => hg y x
    rw [hgeq]

/-- Claim C8 witness: the hypothesis-bearing halves of `C8_determinism`
instantiated at concrete inputs — two runs on the identical primitive list
and on pointwise-equal grids agree. -/
theorem C8_witness :
    extractRegions vecBoundary = extractRegions vecBoundary ∧
    label_connected_components diagGrid 10 10 = label_connected_components diagGrid 10 10 :=
  ⟨(C8_determinism.1 vecBoundary vecBoundary rfl).1,
   C8_determinism.2.2.2 diagGrid diagGrid 10 10 (fun _ _ => rfl)⟩
